import Mathlib

/-!
Verification of the ULZ LZ77 codec (ulz.hpp).

The embedding models byte buffers as `List Nat` (each byte < 256 where it
matters), the match-finder tables `HashTable` and `Prev` as total functions
`Nat → Int` (`NIL = -1`), and all C loops as fuel-based recursion where the
fuel given at top level provably exceeds the number of iterations.

Reads past the logical end of a buffer (which in C land in the caller-provided
`EXCESS` guard region) are modelled as reading the byte 0; the decoder
additionally records a strict upper bound on all input offsets read (`rd`) and
all output offsets written (`wr`), so that guard-region claims are statable.
`WildCopy`, the 8-byte-chunk copy, writes the same logical bytes as a
sequential byte copy (for back-references the C code only uses it when
`dist >= 8`, in which case every chunk reads bytes already written); the model
therefore uses the sequential copy for the contents and accounts for the
chunk rounding in `rd`/`wr` via `wildLen`.
-/

namespace ULZ

/-- Guard region size documented by the library. -/
def EXCESS : Nat := 16

/-- WINDOW_BITS = 17, WINDOW_SIZE = 1 <<< 17. -/
def WINDOW_SIZE : Nat := 131072

/-- WINDOW_MASK = WINDOW_SIZE - 1. -/
def WINDOW_MASK : Nat := WINDOW_SIZE - 1

/-- Minimum back-reference length. -/
def MIN_MATCH : Nat := 4

/-- HASH_BITS = 19, HASH_SIZE = 1 <<< 19. -/
def HASH_SIZE : Nat := 524288

/-- Empty-bucket sentinel. -/
def NIL : Int := -1

/-- UnalignedLoad16: little-endian 16-bit load. Out-of-range bytes read 0
(the model of the EXCESS guard). -/
def load16 (inx : List Nat) (i : Nat) : Nat :=
  inx.getD i 0 + ((inx.getD (i + 1) 0) <<< 8)

/-- UnalignedLoad32: little-endian 32-bit load. -/
def load32 (inx : List Nat) (i : Nat) : Nat :=
  inx.getD i 0 + ((inx.getD (i + 1) 0) <<< 8) + ((inx.getD (i + 2) 0) <<< 16)
    + ((inx.getD (i + 3) 0) <<< 24)

/-- Hash32: (UnalignedLoad32(p) * 0x9E3779B9) >> (32 - HASH_BITS), in U32
arithmetic (the multiply wraps mod 2^32). -/
def Hash32 (inx : List Nat) (i : Nat) : Nat :=
  ((load32 inx i * 2654435769) % 4294967296) >>> 13

/-- Number of bytes actually moved by WildCopy(d, s, n): whole 8-byte chunks,
always at least one (the C code issues the first `UnalignedCopy64`
unconditionally). -/
def wildLen (n : Nat) : Nat :=
  8 * ((n - 1) / 8 + 1)

/-- EncodeMod's loop body, fuelled. While `128 <= x` the C code does
`x -= 128; *p++ = 128 + (x & 127); x >>= 7` (on U32, `& 127` is `% 128` and
`>> 7` is `/ 128`); the final byte is `x` itself. A fuel of `x` is enough
because each continuation step strictly decreases `x`. -/
def encodeModGo : Nat → Nat → List Nat
  | 0, x => [x % 128]
  | fuel + 1, x =>
      if 128 ≤ x then (128 + (x - 128) % 128) :: encodeModGo fuel ((x - 128) / 128)
      else [x]

/-- EncodeMod: the variable-length integer encoder, as a byte list. -/
def EncodeMod (x : Nat) : List Nat :=
  encodeModGo x x

/-- DecodeMod, reading from `inx` at offset `i`: returns the decoded value and
the number of bytes consumed. The C loop runs for i = 0, 7, 14, 21, adds each
full byte `c` shifted by the current offset (the continuation bit included),
and stops early at the first byte below 128; it therefore consumes at most 4
bytes. The sum stays below 2^30, so the U32 addition never wraps. -/
def DecodeModAt (inx : List Nat) (i : Nat) : Nat × Nat :=
  let c0 := inx.getD i 0
  if c0 < 128 then (c0, 1) else
  let c1 := inx.getD (i + 1) 0
  if c1 < 128 then (c0 + (c1 <<< 7), 2) else
  let c2 := inx.getD (i + 2) 0
  if c2 < 128 then (c0 + (c1 <<< 7) + (c2 <<< 14), 3) else
  let c3 := inx.getD (i + 3) 0
  (c0 + (c1 <<< 7) + (c2 <<< 14) + (c3 <<< 21), 4)

/-- One token of the compressed stream: a (possibly empty) literal run followed
by an optional back-reference (distance, full match length). Both encoders
emit `none` only for the final flush token. -/
structure Tok where
  lits : List Nat
  mtch : Option (Nat × Nat)
deriving Repr, DecidableEq

/-- Serialization of one token, exactly as both encoders emit it: token byte
(literal-run code in bits 7-5, distance bit 16 in bit 4, length code in bits
3-0), then the run-length extension varint and the literal bytes, then the
match-length extension varint and the two little-endian low distance bytes
(`UnalignedStore16` truncates the distance to 16 bits). -/
def encTok (t : Tok) : List Nat :=
  match t.mtch with
  | none =>
      (if 7 ≤ t.lits.length then (7 <<< 5) :: EncodeMod (t.lits.length - 7)
       else [t.lits.length <<< 5]) ++ t.lits
  | some (dist, blen) =>
      let len := blen - MIN_MATCH
      let token := ((dist >>> 12) &&& 16) + min len 15
      ((if 7 ≤ t.lits.length then ((7 <<< 5) + token) :: EncodeMod (t.lits.length - 7)
        else [(t.lits.length <<< 5) + token]) ++ t.lits)
      ++ (if 15 ≤ len then EncodeMod (len - 15) else [])
      ++ [(dist % 65536) % 256, (dist % 65536) >>> 8]

/-- Serialization of a token list (the compressed stream). -/
def encToks : List Tok → List Nat
  | [] => []
  | t :: ts => encTok t ++ encToks ts

/-- Overlap-respecting back-reference copy: append `len` bytes, each read at
distance `dist` behind the current end of the output. This is what the
decoder's byte loop does, and also what its `WildCopy` call does to the
logical output when `dist >= 8` (each 8-byte chunk then only reads bytes
already written; the chunk rounding is tracked separately through `wildLen`).
Reading at or before the start of the output (only possible when `dist`
exceeds the bytes produced, e.g. `dist = 0`) yields the garbage byte 0. -/
def matchCopy (out : List Nat) (dist : Nat) : Nat → List Nat
  | 0 => out
  | len + 1 => matchCopy (out ++ [out.getD (out.length - dist) 0]) dist len

/-- Semantics of one token on the output: append the literal run, then perform
the back-reference copy. -/
def applyTok (out : List Nat) (t : Tok) : List Nat :=
  match t.mtch with
  | none => out ++ t.lits
  | some (dist, blen) => matchCopy (out ++ t.lits) dist blen

/-- Semantics of a token list. -/
def applyToks : List Nat → List Tok → List Nat
  | out, [] => out
  | out, t :: ts => applyToks (applyTok out t) ts

/-- Number of output bytes a token produces. -/
def tokLen (t : Tok) : Nat :=
  t.lits.length + (match t.mtch with | none => 0 | some (_, blen) => blen)

/-- Number of output bytes a token list produces. -/
def toksLen : List Tok → Nat
  | [] => 0
  | t :: ts => tokLen t + toksLen ts

/-- Function update for the table models. -/
def upd (f : Nat → Int) (i : Nat) (v : Int) : Nat → Int :=
  fun j => if j = i then v else f j

/-- The match-extension loop `while (len < maxm && in[s+len] == in[p+len])
++len`, fuelled; a fuel of `maxm` always suffices since `len` stays below
`maxm` while looping. -/
def matchLen (inx : List Nat) (s p maxm : Nat) : Nat → Nat → Nat
  | 0, len => len
  | fuel + 1, len =>
      if len < maxm ∧ inx.getD (s + len) 0 = inx.getD (p + len) 0 then
        matchLen inx s p maxm fuel (len + 1)
      else len

/-- Main loop of CompressFast. `tbl` is the hash table (reset to NIL by the
caller), `anchor` the start of the pending literal run, `p` the scan position.
Each iteration advances `p`, so fuel `inx.length + 1` suffices. -/
def fastLoop (inx : List Nat) : Nat → (Nat → Int) → Nat → Nat → List Tok
  | 0, _, _, _ => []
  | fuel + 1, tbl, anchor, p =>
      if p < inx.length then
        let maxm := inx.length - p
        let probe :=
          if MIN_MATCH ≤ maxm then
            let limit : Int := max ((p : Int) - (WINDOW_SIZE : Int)) NIL
            let h := Hash32 inx p
            let s := tbl h
            let tbl1 := upd tbl h (p : Int)
            if limit < s ∧ load32 inx s.toNat = load32 inx p then
              (matchLen inx s.toNat p maxm maxm MIN_MATCH, p - s.toNat, tbl1)
            else (0, 0, tbl1)
          else (0, 0, tbl)
        let bestLen := if probe.1 = MIN_MATCH ∧ 7 + 128 ≤ p - anchor then 0 else probe.1
        if MIN_MATCH ≤ bestLen then
          let tbl2 := upd probe.2.2 (Hash32 inx (p + 1)) ((p : Int) + 1)
          let tbl3 := upd tbl2 (Hash32 inx (p + 2)) ((p : Int) + 2)
          let tbl4 := upd tbl3 (Hash32 inx (p + 3)) ((p : Int) + 3)
          ⟨(inx.drop anchor).take (p - anchor), some (probe.2.1, bestLen)⟩ ::
            fastLoop inx fuel tbl4 (p + bestLen) (p + bestLen)
        else fastLoop inx fuel probe.2.2 anchor (p + 1)
      else if anchor ≠ p then [⟨(inx.drop anchor).take (p - anchor), none⟩] else []

/-- Token stream produced by CompressFast (hash table freshly reset). -/
def fastToks (inx : List Nat) : List Tok :=
  fastLoop inx (inx.length + 1) (fun _ => NIL) 0 0

/-- CompressFast. The C member arrays are modelled as the parameters `hash0`
and `prev0`: the function body resets every hash bucket to NIL before use and
never touches `Prev`, so neither parameter occurs in the result. -/
def CompressFast (inx : List Nat) (hash0 prev0 : Nat → Int) : List Nat :=
  encToks (fastToks inx)

/-- The chain-walk of the normal encoder: starting candidate `s`, at most
`chainLen` probes (`--chain_len == 0` breaks), following `Prev[s & WINDOW_MASK]`.
A candidate inside the window is screened by one byte at offset `bestLen` and
a 4-byte prefix load before the extension loop; a full-length match breaks
immediately. Returns the final (bestLen, dist). -/
def chainStep (inx : List Nat) (prevT : Nat → Int) (limit : Int) (p maxm : Nat) :
    Nat → Int → Nat → Nat → Nat × Nat
  | 0, _, bestLen, dist => (bestLen, dist)
  | cl + 1, s, bestLen, dist =>
      if limit < s then
        let sn := s.toNat
        if inx.getD (sn + bestLen) 0 = inx.getD (p + bestLen) 0 ∧
            load32 inx sn = load32 inx p then
          let len := matchLen inx sn p maxm maxm MIN_MATCH
          if bestLen < len then
            if len = maxm then (len, p - sn)
            else if cl = 0 then (len, p - sn)
            else chainStep inx prevT limit p maxm cl (prevT (sn &&& WINDOW_MASK)) len (p - sn)
          else if cl = 0 then (bestLen, dist)
          else chainStep inx prevT limit p maxm cl (prevT (sn &&& WINDOW_MASK)) bestLen dist
        else if cl = 0 then (bestLen, dist)
        else chainStep inx prevT limit p maxm cl (prevT (sn &&& WINDOW_MASK)) bestLen dist
      else (bestLen, dist)

/-- The lazy-matching probe at position `x = p + 1`: walks the chain looking
for a candidate reaching `targetLen = bestLen + 1`; returns true when found
(the current match is then discarded). -/
def lazyStep (inx : List Nat) (prevT : Nat → Int) (limit : Int) (x targetLen bestLen : Nat) :
    Nat → Int → Bool
  | 0, _ => false
  | cl + 1, s =>
      if limit < s then
        let sn := s.toNat
        if inx.getD (sn + bestLen) 0 = inx.getD (x + bestLen) 0 ∧
            load32 inx sn = load32 inx x then
          let len := matchLen inx sn x targetLen targetLen MIN_MATCH
          if len = targetLen then true
          else if cl = 0 then false
          else lazyStep inx prevT limit x targetLen bestLen cl (prevT (sn &&& WINDOW_MASK))
        else if cl = 0 then false
        else lazyStep inx prevT limit x targetLen bestLen cl (prevT (sn &&& WINDOW_MASK))
      else false

/-- Insert `n` consecutive positions starting at `p` into the chained tables:
`Prev[p & WINDOW_MASK] = HashTable[h]; HashTable[h] = p++`. -/
def insertN (inx : List Nat) : Nat → (Nat → Int) → (Nat → Int) → Nat → (Nat → Int) × (Nat → Int)
  | 0, hashT, prevT, _ => (hashT, prevT)
  | n + 1, hashT, prevT, p =>
      let h := Hash32 inx p
      insertN inx n (upd hashT h (p : Int)) (upd prevT (p &&& WINDOW_MASK) (hashT h)) (p + 1)

/-- Main loop of Compress: chain search, the minimum-match long-run rejection,
the lazy-matching heuristic for levels at least 5 (skipped when the pending
run length is exactly 6), then emission and chained insertion of all covered
positions. Each iteration advances `p`, so fuel `inx.length + 1` suffices. -/
def compressLoop (inx : List Nat) (level : Int) (maxChain : Nat) :
    Nat → (Nat → Int) → (Nat → Int) → Nat → Nat → List Tok
  | 0, _, _, _, _ => []
  | fuel + 1, hashT, prevT, anchor, p =>
      if p < inx.length then
        let maxm := inx.length - p
        let found :=
          if MIN_MATCH ≤ maxm then
            let limit : Int := max ((p : Int) - (WINDOW_SIZE : Int)) NIL
            chainStep inx prevT limit p maxm maxChain (hashT (Hash32 inx p)) 0 0
          else (0, 0)
        let bl1 := if found.1 = MIN_MATCH ∧ 7 + 128 ≤ p - anchor then 0 else found.1
        let bl2 :=
          if 5 ≤ level ∧ MIN_MATCH ≤ bl1 ∧ bl1 < maxm ∧ p - anchor ≠ 6 then
            let x := p + 1
            let limit2 : Int := max ((x : Int) - (WINDOW_SIZE : Int)) NIL
            if lazyStep inx prevT limit2 x (bl1 + 1) bl1 maxChain (hashT (Hash32 inx x)) then 0
            else bl1
          else bl1
        if MIN_MATCH ≤ bl2 then
          let st := insertN inx bl2 hashT prevT p
          ⟨(inx.drop anchor).take (p - anchor), some (found.2, bl2)⟩ ::
            compressLoop inx level maxChain fuel st.1 st.2 (p + bl2) (p + bl2)
        else
          let st := insertN inx 1 hashT prevT p
          compressLoop inx level maxChain fuel st.1 st.2 anchor (p + 1)
      else if anchor ≠ p then [⟨(inx.drop anchor).take (p - anchor), none⟩] else []

/-- Probe budget: 1 << level for levels below 9, 1 << 13 for level 9. -/
def maxChainOf (level : Int) : Nat :=
  if level < 9 then 2 ^ level.toNat else 8192

/-- Token stream produced by Compress at a valid level, starting from the
given initial chain table (`Prev` is not reset by the C code; the hash table
is, hence no hash-table parameter here). -/
def compressToks (inx : List Nat) (level : Int) (prev0 : Nat → Int) : List Tok :=
  compressLoop inx level (maxChainOf level) (inx.length + 1) (fun _ => NIL) prev0 0 0

/-- Compress. Returns `none` exactly when the C code returns the error -1
(level outside [1, 9], checked before any work); otherwise the compressed
byte stream. `hash0` models the hash table contents left by earlier calls; the
function resets every bucket to NIL before use, so `hash0` does not occur in
the result. `prev0` is the chain table left by earlier calls, which the C code
does not reset. -/
def Compress (inx : List Nat) (level : Int) (hash0 prev0 : Nat → Int) : Option (List Nat) :=
  if level < 1 ∨ 9 < level then none
  else some (encToks (compressToks inx level prev0))

/-- Result of one decoder iteration. -/
inductive StepRes where
  | err (rd wr : Nat)
  | done (out : List Nat) (rd wr : Nat)
  | next (ip : Nat) (out : List Nat) (rd wr : Nat)
deriving Repr, DecidableEq

/-- Match phase of one decoder iteration, entered with the token byte and the
input offset `ipm` just past the (possibly empty) literal phase: decode the
match length (inline code plus MIN_MATCH, or the varint extension when the
code is 15), check the output capacity, read the 16 low distance bits and
combine them with the token's bit 4, check the distance against the bytes
already produced, then copy. -/
def decMatch (inx : List Nat) (outLen : Nat) (token ipm : Nat) (outm : List Nat)
    (rdm wrm : Nat) : StepRes :=
  let len0 := (token &&& 15) + MIN_MATCH
  let m2 := if len0 = 15 + MIN_MATCH then DecodeModAt inx ipm else (0, 0)
  let len := len0 + m2.1
  let ip4 := ipm + m2.2
  let rd4 := max rdm ip4
  if (outLen : Int) - outm.length < len then .err rd4 wrm
  else
    let dist := ((token &&& 16) <<< 12) + load16 inx ip4
    let ip5 := ip4 + 2
    let rd5 := max rd4 ip5
    if (outm.length : Int) < dist then .err rd5 wrm
    else
      .next ip5 (matchCopy outm dist len) rd5
        (max wrm (outm.length + if 8 ≤ dist then wildLen len else len))

/-- One iteration of the Decompress loop, from input offset `ip0` (which the
caller guarantees is below `inx.length`) and current output `out`. `rd` and
`wr` are running strict upper bounds on the input offsets read and output
offsets written so far; every read and write this iteration performs extends
them, including the 8-byte chunk rounding of WildCopy (`wildLen`) and the
bytes DecodeMod and the distance load consume past the end of a truncated
input. The capacity and range checks mirror the C comparisons on pointer
differences, hence the `Int` arithmetic. `done` is the literal-phase break
(input exhausted immediately after a literal run) followed by the final
`ip == ip_end` test. -/
def decStep (inx : List Nat) (outLen : Nat) (ip0 : Nat) (out : List Nat) (rd wr : Nat) :
    StepRes :=
  let token := inx.getD ip0 0
  let ip1 := ip0 + 1
  let rd1 := max rd ip1
  if 32 ≤ token then
    let run0 := token >>> 5
    let m := if run0 = 7 then DecodeModAt inx ip1 else (0, 0)
    let run := run0 + m.1
    let ip2 := ip1 + m.2
    let rd2 := max rd1 ip2
    if (outLen : Int) - out.length < run ∨ (inx.length : Int) - ip2 < run then .err rd2 wr
    else
      let out1 := out ++ (inx.drop ip2).take run
      let rd3 := max rd2 (ip2 + wildLen run)
      let wr1 := max wr (out.length + wildLen run)
      let ip3 := ip2 + run
      if inx.length ≤ ip3 then (if ip3 = inx.length then .done out1 rd3 wr1 else .err rd3 wr1)
      else decMatch inx outLen token ip3 out1 rd3 wr1
  else decMatch inx outLen token ip1 out rd1 wr

/-- The Decompress loop: iterate `decStep` while input remains; on loop exit
the C code returns successfully iff the input cursor landed exactly on the
input end. Each iteration consumes at least the token byte, so fuel
`inx.length + 1` suffices. -/
def DecLoop (inx : List Nat) (outLen : Nat) :
    Nat → Nat → List Nat → Nat → Nat → Option (List Nat) × Nat × Nat
  | 0, _, _, rd, wr => (none, rd, wr)
  | fuel + 1, ip, out, rd, wr =>
      if ip < inx.length then
        match decStep inx outLen ip out rd wr with
        | .err rd1 wr1 => (none, rd1, wr1)
        | .done out1 rd1 wr1 => (some out1, rd1, wr1)
        | .next ip1 out1 rd1 wr1 => DecLoop inx outLen fuel ip1 out1 rd1 wr1
      else ((if ip = inx.length then some out else none), rd, wr)

/-- Decompress. First component: `some` of the produced bytes on success,
`none` for the error return -1. Second and third components: strict upper
bounds on the input offsets read and the output offsets written. -/
def Decompress (inx : List Nat) (outLen : Nat) : Option (List Nat) × Nat × Nat :=
  DecLoop inx outLen (inx.length + 1) 0 [] 0 0

/-- A buffer whose entries are genuine bytes. -/
def Bytes (inx : List Nat) : Prop :=
  ∀ b ∈ inx, b < 256

/-- The largest value whose EncodeMod encoding fits in the at most 4 bytes
DecodeMod consumes: 255 + 255 * 2^7 + 255 * 2^14 + 127 * 2^21. -/
def V4 : Nat := 270549119

/-- Distance-bound validity of a token stream to be decoded after `n` bytes
of output: every back-reference has a length of at least MIN_MATCH and a
distance in [1, WINDOW_SIZE) that does not exceed the output position at
which the match starts. -/
def distOK : List Tok → Nat → Bool
  | [], _ => true
  | t :: ts, n =>
      match t.mtch with
      | none => true
      | some (dist, blen) =>
          decide (MIN_MATCH ≤ blen) && decide (1 ≤ dist) && decide (dist < WINDOW_SIZE) &&
            decide (dist ≤ n + t.lits.length) && distOK ts (n + t.lits.length + blen)

/-- Every varint remainder a token stream stores fits in the 4 bytes
DecodeMod will read back. -/
def varintOK : List Tok → Bool
  | [] => true
  | t :: ts =>
      (decide (t.lits.length ≤ 7 + V4) &&
        match t.mtch with
        | none => true
        | some (_, blen) => decide (blen ≤ 19 + V4)) && varintOK ts

/-- Structural validity: a token without a back-reference is the final flush
token, and it carries a non-empty literal run. -/
def lastOnlyNone : List Tok → Bool
  | [] => true
  | [t] => match t.mtch with | none => !t.lits.isEmpty | some _ => true
  | t :: ts => (match t.mtch with | none => false | some _ => true) && lastOnlyNone ts

/-- Guard-region discipline of one decoder step outcome: the read and write
high-water marks stay within EXCESS of the declared buffer ends, and a
continuing step keeps the logical output within the declared capacity. -/
def decBounds (inLen outLen : Nat) : StepRes → Prop
  | StepRes.err rd1 wr1 => rd1 ≤ inLen + EXCESS ∧ wr1 ≤ outLen + EXCESS
  | StepRes.done _ rd1 wr1 => rd1 ≤ inLen + EXCESS ∧ wr1 ≤ outLen + EXCESS
  | StepRes.next _ o rd1 wr1 => rd1 ≤ inLen + EXCESS ∧ wr1 ≤ outLen + EXCESS ∧
      o.length ≤ outLen

/-- A chain-search accumulator or result at scan position `p` with `maxm`
bytes remaining: either still empty, or a genuine candidate whose length and
distance are in range (and whose bytes match, on byte inputs). -/
def goodMatch (inx : List Nat) (p maxm bl d : Nat) : Prop :=
  (bl = 0 ∧ d = 0) ∨
  (MIN_MATCH ≤ bl ∧ bl ≤ maxm ∧ 1 ≤ d ∧ d ≤ p ∧ d < WINDOW_SIZE ∧
    (Bytes inx → ∀ i, i < bl → inx.getD (p + i) 0 = inx.getD (p + i - d) 0))

/-! Basic facts about buffers and the varint codec. -/

theorem getD_lt_256 {inx : List Nat} (h : Bytes inx) (i : Nat) : inx.getD i 0 < 256 := by
  rcases Nat.lt_or_ge i inx.length with hi | hi
  · rw [List.getD_eq_getElem _ _ hi]
    exact h _ (inx.getElem_mem hi)
  · rw [List.getD_eq_default _ _ hi]
    omega

theorem getD_concat (pre l : List Nat) (k : Nat) :
    (pre ++ l).getD (pre.length + k) 0 = l.getD k 0 := by
  rw [List.getD_append_right _ _ _ _ (Nat.le_add_right _ _), Nat.add_sub_cancel_left]

theorem take_drop_concat (pre l post : List Nat) :
    ((pre ++ (l ++ post)).drop pre.length).take l.length = l := by
  rw [List.drop_left, List.take_left]

theorem shl5 (a : Nat) : a <<< 5 = a * 32 := by rw [Nat.shiftLeft_eq]

theorem shl7 (a : Nat) : a <<< 7 = a * 128 := by rw [Nat.shiftLeft_eq]

theorem shl8 (a : Nat) : a <<< 8 = a * 256 := by rw [Nat.shiftLeft_eq]

theorem shl12 (a : Nat) : a <<< 12 = a * 4096 := by rw [Nat.shiftLeft_eq]

theorem shl14 (a : Nat) : a <<< 14 = a * 16384 := by rw [Nat.shiftLeft_eq]

theorem shl16 (a : Nat) : a <<< 16 = a * 65536 := by rw [Nat.shiftLeft_eq]

theorem shl21 (a : Nat) : a <<< 21 = a * 2097152 := by rw [Nat.shiftLeft_eq]

theorem shl24 (a : Nat) : a <<< 24 = a * 16777216 := by rw [Nat.shiftLeft_eq]

theorem encodeModGo_fuelIrrel : ∀ f g x : Nat, x ≤ f → x ≤ g → encodeModGo f x = encodeModGo g x := by
  intro f
  induction f with
  | zero =>
      intro g x hf _
      interval_cases x
      cases g <;> simp [encodeModGo]
  | succ f ih =>
      intro g x hf hg
      cases g with
      | zero =>
          interval_cases x
          simp [encodeModGo]
      | succ g =>
          simp only [encodeModGo]
          split

          case isTrue h =>
            have hd : (x - 128) / 128 ≤ f := le_trans (Nat.div_le_self _ _) (by omega)
            have hd2 : (x - 128) / 128 ≤ g := le_trans (Nat.div_le_self _ _) (by omega)
            rw [ih g ((x - 128) / 128) hd hd2]
          case isFalse h => rfl

theorem encodeMod_lt128 {x : Nat} (h : x < 128) : EncodeMod x = [x] := by
  unfold EncodeMod
  cases x with
  | zero => simp [encodeModGo]
  | succ n => simp [encodeModGo, Nat.not_le.2 h]

theorem encodeMod_ge128 {x : Nat} (h : 128 ≤ x) :
    EncodeMod x = (128 + (x - 128) % 128) :: EncodeMod ((x - 128) / 128) := by
  unfold EncodeMod
  obtain ⟨f, rfl⟩ : ∃ f, x = f + 1 := ⟨x - 1, by omega⟩
  simp only [encodeModGo, if_pos h]
  congr 1
  exact encodeModGo_fuelIrrel _ _ _ (le_trans (Nat.div_le_self _ _) (by omega)) (le_refl _)

theorem encodeMod_shape : ∀ x : Nat, ∃ bs b, EncodeMod x = bs ++ [b] ∧
    (∀ c ∈ bs, 128 ≤ c ∧ c < 256) ∧ b < 128 := by
  intro x
  induction x using Nat.strong_induction_on with
  | _ x ih =>
      rcases Nat.lt_or_ge x 128 with h | h
      · exact ⟨[], x, by rw [encodeMod_lt128 h]; simp, by simp, h⟩
      · obtain ⟨bs, b, heq, hbs, hb⟩ := ih ((x - 128) / 128)
          (lt_of_le_of_lt (Nat.div_le_self _ _) (by omega))
        refine ⟨(128 + (x - 128) % 128) :: bs, b, ?_, ?_, hb⟩
        · rw [encodeMod_ge128 h, heq]
          simp
        · intro c hc
          rcases List.mem_cons.1 hc with hceq | hc
          · have hm : (x - 128) % 128 < 128 := Nat.mod_lt _ (by omega)
            omega
          · exact hbs c hc

theorem decodeMod_encodeMod (x : Nat) (hx : x ≤ V4) (pre post : List Nat) :
    DecodeModAt (pre ++ (EncodeMod x ++ post)) pre.length = (x, (EncodeMod x).length) := by
  rcases Nat.lt_or_ge x 128 with h1 | h1
  · rw [encodeMod_lt128 h1]
    have g0 : (pre ++ ([x] ++ post)).getD (pre.length + 0) 0 = x := by
      rw [getD_concat]; rfl
    rw [Nat.add_zero] at g0
    simp only [DecodeModAt]
    rw [g0, if_pos h1]
    simp
  · set x1 := (x - 128) / 128 with hx1
    have hx1eq : 128 * x1 + (x - 128) % 128 = x - 128 := by
      rw [hx1]; exact Nat.div_add_mod _ _
    have e1 := encodeMod_ge128 h1
    rcases Nat.lt_or_ge x1 128 with h2 | h2
    · rw [e1, encodeMod_lt128 h2]
      have g0 : (pre ++ (((128 + (x - 128) % 128) :: [x1]) ++ post)).getD (pre.length + 0) 0
          = 128 + (x - 128) % 128 := by rw [getD_concat]; rfl
      have g1 : (pre ++ (((128 + (x - 128) % 128) :: [x1]) ++ post)).getD (pre.length + 1) 0
          = x1 := by rw [getD_concat]; rfl
      rw [Nat.add_zero] at g0
      simp only [DecodeModAt]
      rw [g0, g1, if_neg (by omega), if_pos h2, shl7]
      have hv : 128 + (x - 128) % 128 + x1 * 128 = x := by omega
      rw [hv]
      simp
    · set x2 := (x1 - 128) / 128 with hx2
      have hx2eq : 128 * x2 + (x1 - 128) % 128 = x1 - 128 := by
        rw [hx2]; exact Nat.div_add_mod _ _
      have e2 := encodeMod_ge128 h2
      rcases Nat.lt_or_ge x2 128 with h3 | h3
      · rw [e1, e2, encodeMod_lt128 h3]
        have g0 : (pre ++ (((128 + (x - 128) % 128) :: (128 + (x1 - 128) % 128) :: [x2])
            ++ post)).getD (pre.length + 0) 0 = 128 + (x - 128) % 128 := by
          rw [getD_concat]; rfl
        have g1 : (pre ++ (((128 + (x - 128) % 128) :: (128 + (x1 - 128) % 128) :: [x2])
            ++ post)).getD (pre.length + 1) 0 = 128 + (x1 - 128) % 128 := by
          rw [getD_concat]; rfl
        have g2 : (pre ++ (((128 + (x - 128) % 128) :: (128 + (x1 - 128) % 128) :: [x2])
            ++ post)).getD (pre.length + 2) 0 = x2 := by
          rw [getD_concat]; rfl
        rw [Nat.add_zero] at g0
        simp only [DecodeModAt]
        rw [g0, g1, g2, if_neg (by omega), if_neg (by omega), if_pos h3, shl7, shl14]
        have hv : 128 + (x - 128) % 128 + (128 + (x1 - 128) % 128) * 128 + x2 * 16384 = x := by
          omega
        rw [hv]
        simp
      · set x3 := (x2 - 128) / 128 with hx3
        have hx3eq : 128 * x3 + (x2 - 128) % 128 = x2 - 128 := by
          rw [hx3]; exact Nat.div_add_mod _ _
        have e3 := encodeMod_ge128 h3
        have h4 : x3 < 128 := by
          simp only [V4] at hx
          omega
        rw [e1, e2, e3, encodeMod_lt128 h4]
        have g0 : (pre ++ (((128 + (x - 128) % 128) :: (128 + (x1 - 128) % 128) ::
            (128 + (x2 - 128) % 128) :: [x3]) ++ post)).getD (pre.length + 0) 0
            = 128 + (x - 128) % 128 := by rw [getD_concat]; rfl
        have g1 : (pre ++ (((128 + (x - 128) % 128) :: (128 + (x1 - 128) % 128) ::
            (128 + (x2 - 128) % 128) :: [x3]) ++ post)).getD (pre.length + 1) 0
            = 128 + (x1 - 128) % 128 := by rw [getD_concat]; rfl
        have g2 : (pre ++ (((128 + (x - 128) % 128) :: (128 + (x1 - 128) % 128) ::
            (128 + (x2 - 128) % 128) :: [x3]) ++ post)).getD (pre.length + 2) 0
            = 128 + (x2 - 128) % 128 := by rw [getD_concat]; rfl
        have g3 : (pre ++ (((128 + (x - 128) % 128) :: (128 + (x1 - 128) % 128) ::
            (128 + (x2 - 128) % 128) :: [x3]) ++ post)).getD (pre.length + 3) 0
            = x3 := by rw [getD_concat]; rfl
        rw [Nat.add_zero] at g0
        simp only [DecodeModAt]
        rw [g0, g1, g2, g3, if_neg (by omega), if_neg (by omega), if_neg (by omega),
          shl7, shl14, shl21]
        have hv : 128 + (x - 128) % 128 + (128 + (x1 - 128) % 128) * 128 +
            (128 + (x2 - 128) % 128) * 16384 + x3 * 2097152 = x := by omega
        rw [hv]
        simp

theorem encodeMod_length_le (x : Nat) (hx : x ≤ V4) : (EncodeMod x).length ≤ 4 := by
  rcases Nat.lt_or_ge x 128 with h1 | h1
  · rw [encodeMod_lt128 h1]; simp
  · set x1 := (x - 128) / 128 with hx1
    have hx1eq : 128 * x1 + (x - 128) % 128 = x - 128 := by
      rw [hx1]; exact Nat.div_add_mod _ _
    rw [encodeMod_ge128 h1]
    rcases Nat.lt_or_ge x1 128 with h2 | h2
    · rw [encodeMod_lt128 h2]; simp
    · set x2 := (x1 - 128) / 128 with hx2
      have hx2eq : 128 * x2 + (x1 - 128) % 128 = x1 - 128 := by
        rw [hx2]; exact Nat.div_add_mod _ _
      rw [encodeMod_ge128 h2]
      rcases Nat.lt_or_ge x2 128 with h3 | h3
      · rw [encodeMod_lt128 h3]; simp
      · set x3 := (x2 - 128) / 128 with hx3
        have hx3eq : 128 * x3 + (x2 - 128) % 128 = x2 - 128 := by
          rw [hx3]; exact Nat.div_add_mod _ _
        rw [encodeMod_ge128 h3]
        have h4 : x3 < 128 := by
          simp only [V4] at hx
          omega
        rw [encodeMod_lt128 h4]
        simp

/-! Token-byte field arithmetic and basic length lemmas. -/

theorem tokByte_fields : ∀ r < 8, ∀ b < 2, ∀ lc < 16,
    ((r <<< 5) + (16 * b + lc)) >>> 5 = r ∧ ((r <<< 5) + (16 * b + lc)) &&& 15 = lc ∧
    ((r <<< 5) + (16 * b + lc)) &&& 16 = 16 * b ∧ (32 ≤ (r <<< 5) + (16 * b + lc) ↔ 1 ≤ r) := by
  decide

theorem hi_dist_bit (d : Nat) (hd : d < 131072) : (d >>> 12) &&& 16 = 16 * (d / 65536) := by
  have h1 : d >>> 12 = d / 4096 := by
    rw [Nat.shiftRight_eq_div_pow]
  have h2 : d / 4096 < 32 := by omega
  have h3 : ∀ q < 32, q &&& 16 = 16 * (q / 16) := by decide
  rw [h1, h3 _ h2, Nat.div_div_eq_div_mul]

theorem dist_recon (d : Nat) (hd : d < 131072) :
    ((16 * (d / 65536)) <<< 12) + ((d % 65536) % 256 + (((d % 65536) >>> 8) <<< 8)) = d := by
  have h1 : (d % 65536) >>> 8 = (d % 65536) / 256 := by
    rw [Nat.shiftRight_eq_div_pow]
  rw [h1, shl12, shl8]
  have h2 := Nat.div_add_mod (d % 65536) 256
  have h3 := Nat.div_add_mod d 65536
  have h4 : d % 65536 < 65536 := Nat.mod_lt _ (by norm_num)
  omega

theorem matchCopy_length (d : Nat) : ∀ (l : Nat) (out : List Nat),
    (matchCopy out d l).length = out.length + l := by
  intro l
  induction l with
  | zero => intro out; simp [matchCopy]
  | succ n ih =>
      intro out
      simp only [matchCopy]
      rw [ih]
      simp only [List.length_append, List.length_singleton]
      omega

theorem applyTok_length (out : List Nat) (t : Tok) :
    (applyTok out t).length = out.length + tokLen t := by
  rcases t with ⟨lits, mtch⟩
  rcases mtch with _ | ⟨d, bl⟩
  · simp [applyTok, tokLen]
  · simp only [applyTok, tokLen, matchCopy_length, List.length_append]
    omega

theorem applyToks_length : ∀ (toks : List Tok) (out : List Nat),
    (applyToks out toks).length = out.length + toksLen toks := by
  intro toks
  induction toks with
  | nil => intro out; simp [applyToks, toksLen]
  | cons t ts ih =>
      intro out
      simp only [applyToks, toksLen]
      rw [ih, applyTok_length]
      omega

theorem encTok_match_assoc (lits : List Nat) (d bl : Nat) :
    encTok ⟨lits, some (d, bl)⟩ =
      (if 7 ≤ lits.length then
        ((7 <<< 5) + (((d >>> 12) &&& 16) + min (bl - MIN_MATCH) 15)) :: EncodeMod (lits.length - 7)
       else [(lits.length <<< 5) + (((d >>> 12) &&& 16) + min (bl - MIN_MATCH) 15)]) ++
      (lits ++ ((if 15 ≤ bl - MIN_MATCH then EncodeMod (bl - MIN_MATCH - 15) else []) ++
        [(d % 65536) % 256, (d % 65536) >>> 8])) := by
  simp [encTok, List.append_assoc]

theorem encTok_none_assoc (lits : List Nat) :
    encTok ⟨lits, none⟩ =
      (if 7 ≤ lits.length then (7 <<< 5) :: EncodeMod (lits.length - 7)
       else [lits.length <<< 5]) ++ lits := by
  simp [encTok]

/-! The match phase of the decoder applied to a well-formed encoded tail. -/

theorem decMatch_spec (pre post : List Nat) (outLen : Nat) (d bl r : Nat) (outm : List Nat)
    (rdm wrm : Nat) (hr : r < 8) (hbl : MIN_MATCH ≤ bl) (hblv : bl ≤ 19 + V4)
    (hd : d < WINDOW_SIZE) (hdo : d ≤ outm.length) (hcap : outm.length + bl ≤ outLen) :
    ∃ rd1 wr1,
      decMatch (pre ++ ((if 15 ≤ bl - MIN_MATCH then EncodeMod (bl - MIN_MATCH - 15) else []) ++
          ([(d % 65536) % 256, (d % 65536) >>> 8] ++ post))) outLen
        ((r <<< 5) + (16 * (d / 65536) + min (bl - MIN_MATCH) 15)) pre.length outm rdm wrm
      = StepRes.next (pre.length +
          ((if 15 ≤ bl - MIN_MATCH then (EncodeMod (bl - MIN_MATCH - 15)).length else 0) + 2))
          (matchCopy outm d bl) rd1 wr1 := by
  simp only [MIN_MATCH, WINDOW_SIZE, V4] at *
  have hb2 : d / 65536 < 2 := by omega
  have hlc : min (bl - 4) 15 < 16 := by
    have := Nat.min_le_right (bl - 4) 15
    omega
  obtain ⟨hshr, hand15, hand16, hge32⟩ := tokByte_fields r hr (d / 65536) hb2 _ hlc
  rcases Nat.lt_or_ge (bl - 4) 15 with h15 | h15
  · -- inline length code, no extension varint
    have hmin : min (bl - 4) 15 = bl - 4 := min_eq_left (by omega)
    have hnot15 : ¬ (15 ≤ bl - 4) := by omega
    rw [hmin] at hand15 hand16 hge32 ⊢
    rw [if_neg hnot15, if_neg hnot15]
    simp only [List.nil_append]
    simp only [decMatch, MIN_MATCH]
    rw [hand15]
    have hc1 : ¬ (bl - 4 + 4 = 15 + 4) := by omega
    rw [if_neg hc1]
    dsimp only
    have hlen : bl - 4 + 4 + 0 = bl := by omega
    rw [hlen, Nat.add_zero]
    have hcap2 : ¬ ((outLen : Int) - outm.length < (bl : Int)) := by push_cast; omega
    rw [if_neg hcap2]
    have hload : load16 (pre ++ ([(d % 65536) % 256, (d % 65536) >>> 8] ++ post)) pre.length =
        (d % 65536) % 256 + (((d % 65536) >>> 8) <<< 8) := by
      unfold load16
      have g0 : (pre ++ ([(d % 65536) % 256, (d % 65536) >>> 8] ++ post)).getD (pre.length + 0) 0
          = (d % 65536) % 256 := by rw [getD_concat]; rfl
      have g1 : (pre ++ ([(d % 65536) % 256, (d % 65536) >>> 8] ++ post)).getD (pre.length + 1) 0
          = (d % 65536) >>> 8 := by rw [getD_concat]; rfl
      rw [Nat.add_zero] at g0
      rw [g0, g1]
    rw [hload, hand16, dist_recon d (by omega)]
    have hrange : ¬ ((outm.length : Int) < (d : Int)) := by push_cast; omega
    rw [if_neg hrange]
    exact ⟨_, _, rfl⟩
  · -- extension varint present
    have hmin : min (bl - 4) 15 = 15 := min_eq_right h15
    rw [hmin] at hand15 hand16 hge32 ⊢
    rw [if_pos h15, if_pos h15]
    simp only [decMatch, MIN_MATCH]
    rw [hand15]
    rw [if_pos rfl]
    rw [decodeMod_encodeMod (bl - 4 - 15) (by simp only [V4]; omega) pre
      ([(d % 65536) % 256, (d % 65536) >>> 8] ++ post)]
    dsimp only
    have hlen : 15 + 4 + (bl - 4 - 15) = bl := by omega
    rw [hlen]
    have hcap2 : ¬ ((outLen : Int) - outm.length < (bl : Int)) := by push_cast; omega
    rw [if_neg hcap2]
    have hassoc : pre ++ (EncodeMod (bl - 4 - 15) ++ ([(d % 65536) % 256, (d % 65536) >>> 8] ++ post))
        = (pre ++ EncodeMod (bl - 4 - 15)) ++ ([(d % 65536) % 256, (d % 65536) >>> 8] ++ post) := by
      simp [List.append_assoc]
    have hip : pre.length + (EncodeMod (bl - 4 - 15)).length
        = (pre ++ EncodeMod (bl - 4 - 15)).length := by simp
    have hload : load16 (pre ++ (EncodeMod (bl - 4 - 15) ++
        ([(d % 65536) % 256, (d % 65536) >>> 8] ++ post)))
        (pre.length + (EncodeMod (bl - 4 - 15)).length) =
        (d % 65536) % 256 + (((d % 65536) >>> 8) <<< 8) := by
      unfold load16
      rw [hip, hassoc]
      have g0 : ((pre ++ EncodeMod (bl - 4 - 15)) ++
          ([(d % 65536) % 256, (d % 65536) >>> 8] ++ post)).getD
          ((pre ++ EncodeMod (bl - 4 - 15)).length + 0) 0 = (d % 65536) % 256 := by
        rw [getD_concat]; rfl
      have g1 : ((pre ++ EncodeMod (bl - 4 - 15)) ++
          ([(d % 65536) % 256, (d % 65536) >>> 8] ++ post)).getD
          ((pre ++ EncodeMod (bl - 4 - 15)).length + 1) 0 = (d % 65536) >>> 8 := by
        rw [getD_concat]; rfl
      rw [Nat.add_zero] at g0
      rw [g0, g1]
    rw [hload, hand16, dist_recon d (by omega)]
    have hrange : ¬ ((outm.length : Int) < (d : Int)) := by push_cast; omega
    rw [if_neg hrange]
    have harith : pre.length + (EncodeMod (bl - 4 - 15)).length + 2
        = pre.length + ((EncodeMod (bl - 4 - 15)).length + 2) := by omega
    rw [← harith]
    exact ⟨_, _, rfl⟩

theorem getD_at_len (pre : List Nat) (b : Nat) (l : List Nat) :
    (pre ++ (b :: l)).getD pre.length 0 = b := by
  have h := getD_concat pre (b :: l) 0
  rw [Nat.add_zero] at h
  rw [h]
  rfl

theorem decodeMod_encodeMod_cons (b x : Nat) (hx : x ≤ V4) (pre post : List Nat) :
    DecodeModAt (pre ++ (b :: (EncodeMod x ++ post))) (pre.length + 1)
      = (x, (EncodeMod x).length) := by
  have h := decodeMod_encodeMod x hx (pre ++ [b]) post
  simpa using h

/-- One full decoder iteration on a serialized match token: the literal run is
copied, the match length and distance are recovered, and the iteration ends
with `next` at the first byte of the following token. -/
theorem decStep_match (pre post inx : List Nat) (outLen : Nat) (lits : List Nat) (d bl : Nat)
    (out : List Nat) (rd wr : Nat)
    (heq : inx = pre ++ (encTok ⟨lits, some (d, bl)⟩ ++ post))
    (hbl : MIN_MATCH ≤ bl) (hblv : bl ≤ 19 + V4) (hlits : lits.length ≤ 7 + V4)
    (hdw : d < WINDOW_SIZE) (hdo : d ≤ out.length + lits.length)
    (hcap : out.length + lits.length + bl ≤ outLen) :
    ∃ rd1 wr1,
      decStep inx outLen pre.length out rd wr
        = StepRes.next (pre.length + (encTok ⟨lits, some (d, bl)⟩).length)
            (matchCopy (out ++ lits) d bl) rd1 wr1 := by
  have hdw2 : d < 131072 := by simpa [WINDOW_SIZE] using hdw
  have hb2 : d / 65536 < 2 := by omega
  have hlcb : min (bl - MIN_MATCH) 15 < 16 := by
    have := Nat.min_le_right (bl - MIN_MATCH) 15
    omega
  subst heq
  rw [encTok_match_assoc, hi_dist_bit d hdw2]
  rcases Nat.lt_or_ge lits.length 7 with h7 | h7
  · -- short (or empty) literal run: inline run code
    rw [if_neg (by omega : ¬ (7 ≤ lits.length))]
    obtain ⟨hshr, hand15, hand16, hge32⟩ :=
      tokByte_fields lits.length (by omega) (d / 65536) hb2 _ hlcb
    simp only [List.cons_append, List.singleton_append, List.append_assoc, List.nil_append] at *
    set E := (if 15 ≤ bl - MIN_MATCH then EncodeMod (bl - MIN_MATCH - 15) else ([] : List Nat))
      with hE
    set tb := lits.length <<< 5 + (16 * (d / 65536) + min (bl - MIN_MATCH) 15) with htb
    set d0 := (d % 65536) % 256 with hd0
    set d1 := (d % 65536) >>> 8 with hd1
    have hElen : E.length = (if 15 ≤ bl - MIN_MATCH then (EncodeMod (bl - MIN_MATCH - 15)).length
        else 0) := by
      rw [hE]
      rcases le_or_lt 15 (bl - MIN_MATCH) with h | h
      · rw [if_pos h, if_pos h]
      · rw [if_neg (by omega), if_neg (by omega)]
        rfl
    have hget : (pre ++ (tb :: (lits ++ (E ++ (d0 :: (d1 :: post)))))).getD pre.length 0 = tb :=
      getD_at_len _ _ _
    have hSlen : (pre ++ (tb :: (lits ++ (E ++ (d0 :: (d1 :: post)))))).length
        = pre.length + (1 + (lits.length + (E.length + (2 + post.length)))) := by
      simp
      omega
    rcases Nat.eq_zero_or_pos lits.length with h0 | h0
    · -- no literal phase at all: token byte below 32
      have hnil : lits = [] := List.length_eq_zero.1 h0
      subst hnil
      simp only [List.nil_append, List.length_nil] at hget
      have hn32 : ¬ (32 ≤ tb) := by
        rw [htb]
        simp only [List.length_nil, Nat.zero_shiftLeft, Nat.zero_add]
        omega
      obtain ⟨rd1, wr1, hmd2⟩ := decMatch_spec (pre ++ [tb]) post outLen d bl 0 out
        (max rd (pre.length + 1)) wr (by omega) hbl hblv hdw (by simpa using hdo)
        (by simpa using hcap)
      refine ⟨rd1, wr1, ?_⟩
      simp only [decStep, List.nil_append]
      rw [hget, if_neg hn32]
      simp only [List.append_assoc, List.singleton_append, List.cons_append, List.nil_append,
        List.length_append, List.length_cons, List.length_nil] at hmd2
      convert hmd2 using 2
      all_goals first
        | rfl
        | (simp [hElen]; omega)
        | (simp; omega)
        | simp
    · -- literal phase copies the run, then the match phase follows
      have h32 : 32 ≤ tb := hge32.mpr h0
      have hrun7 : ¬ (lits.length = 7) := by omega
      have htake := take_drop_concat (pre ++ [tb]) lits (E ++ (d0 :: (d1 :: post)))
      simp only [List.append_assoc, List.singleton_append, List.length_append,
        List.length_cons, List.length_nil, Nat.add_zero, List.cons_append] at htake
      obtain ⟨rd1, wr1, hmd2⟩ := decMatch_spec ((pre ++ [tb]) ++ lits) post outLen d bl
        lits.length (out ++ lits) _ _ (by omega) hbl hblv hdw (by simpa using hdo)
        (by simpa using hcap)
      refine ⟨rd1, wr1, ?_⟩
      simp only [decStep]
      rw [hget, if_pos h32, hshr, if_neg hrun7]
      split
      case isTrue hc =>
        exfalso
        rw [hSlen] at hc
        rcases hc with hc | hc
        · simp at hc
          omega
        · simp at hc
          omega
      case isFalse hc =>
        have htake2 : ((pre ++ (tb :: (lits ++ (E ++ (d0 :: (d1 :: post)))))).drop
            (pre.length + 1 + (0, 0).2)).take (lits.length + (0, 0).1) = lits := by
          simpa using htake
        rw [htake2]
        split
        case isTrue hb2 =>
          exfalso
          rw [hSlen] at hb2
          simp at hb2
          omega
        case isFalse hb3 =>
          simp only [List.append_assoc, List.singleton_append, List.cons_append, List.nil_append,
            List.length_append, List.length_cons, List.length_nil] at hmd2
          convert hmd2 using 2
          all_goals first
            | rfl
            | (simp [hElen]; omega)
            | (simp; omega)
            | simp
  · -- long literal run: run code 7 plus varint
    rw [if_pos h7]
    obtain ⟨hshr, hand15, hand16, hge32⟩ :=
      tokByte_fields 7 (by omega) (d / 65536) hb2 _ hlcb
    simp only [List.cons_append, List.singleton_append, List.append_assoc, List.nil_append] at *
    set E := (if 15 ≤ bl - MIN_MATCH then EncodeMod (bl - MIN_MATCH - 15) else ([] : List Nat))
      with hE
    set tb := 7 <<< 5 + (16 * (d / 65536) + min (bl - MIN_MATCH) 15) with htb
    set d0 := (d % 65536) % 256 with hd0
    set d1 := (d % 65536) >>> 8 with hd1
    set V := EncodeMod (lits.length - 7) with hV
    have hElen : E.length = (if 15 ≤ bl - MIN_MATCH then (EncodeMod (bl - MIN_MATCH - 15)).length
        else 0) := by
      rw [hE]
      rcases le_or_lt 15 (bl - MIN_MATCH) with h | h
      · rw [if_pos h, if_pos h]
      · rw [if_neg (by omega), if_neg (by omega)]
        rfl
    have hget : (pre ++ (tb :: (V ++ (lits ++ (E ++ (d0 :: (d1 :: post))))))).getD pre.length 0
        = tb := getD_at_len _ _ _
    have hSlen : (pre ++ (tb :: (V ++ (lits ++ (E ++ (d0 :: (d1 :: post))))))).length
        = pre.length + (1 + (V.length + (lits.length + (E.length + (2 + post.length))))) := by
      simp
      omega
    have h32 : 32 ≤ tb := hge32.mpr (by omega)
    have hdm : DecodeModAt (pre ++ (tb :: (V ++ (lits ++ (E ++ (d0 :: (d1 :: post)))))))
        (pre.length + 1) = (lits.length - 7, V.length) := by
      rw [hV]
      exact decodeMod_encodeMod_cons tb (lits.length - 7) (by simp only [V4] at *; omega) pre _
    obtain ⟨rd1, wr1, hmd2⟩ := decMatch_spec (((pre ++ [tb]) ++ V) ++ lits) post outLen d bl 7
      (out ++ lits) _ _ (by omega) hbl hblv hdw (by simpa using hdo) (by simpa using hcap)
    refine ⟨rd1, wr1, ?_⟩
    simp only [decStep]
    rw [hget, if_pos h32, hshr, if_pos rfl, hdm]
    split
    case isTrue hc =>
      exfalso
      rw [hSlen] at hc
      rcases hc with hc | hc
      · simp at hc
        omega
      · simp at hc
        omega
    case isFalse hc =>
      have htake2 : ((pre ++ (tb :: (V ++ (lits ++ (E ++ (d0 :: (d1 :: post))))))).drop
          (pre.length + 1 + (lits.length - 7, V.length).2)).take
          (7 + (lits.length - 7, V.length).1) = lits := by
        have hrun : 7 + (lits.length - 7, V.length).1 = lits.length := by
          simp
          omega
        have hv2 : (lits.length - 7, V.length).2 = V.length := rfl
        have hassoc2 : pre ++ (tb :: (V ++ (lits ++ (E ++ (d0 :: (d1 :: post))))))
            = ((pre ++ [tb]) ++ V) ++ (lits ++ (E ++ (d0 :: (d1 :: post)))) := by simp
        have hlen2 : pre.length + 1 + V.length = ((pre ++ [tb]) ++ V).length := by
          simp
          omega
        rw [hrun, hv2, hassoc2, hlen2]
        exact take_drop_concat _ _ _
      rw [htake2]
      split
      case isTrue hb2 =>
        exfalso
        rw [hSlen] at hb2
        simp at hb2
        omega
      case isFalse hb3 =>
        simp only [List.append_assoc, List.singleton_append, List.cons_append, List.nil_append,
          List.length_append, List.length_cons, List.length_nil] at hmd2
        convert hmd2 using 2
        all_goals first
          | rfl
          | (simp [hElen]; omega)
          | (simp; omega)
          | simp

theorem encTok_len_pos (t : Tok) : 1 ≤ (encTok t).length := by
  rcases t with ⟨lits, mtch⟩
  rcases mtch with _ | ⟨d, bl⟩
  · rw [encTok_none_assoc]
    rcases le_or_lt 7 lits.length with h | h
    · rw [if_pos h]
      simp
    · rw [if_neg (by omega)]
      simp
  · rw [encTok_match_assoc]
    rcases le_or_lt 7 lits.length with h | h
    · rw [if_pos h]
      simp
    · rw [if_neg (by omega)]
      simp

/-- One full decoder iteration on the final literal-only flush token placed at
the very end of the input: the run is copied and the loop stops successfully. -/
theorem decStep_final (pre inx : List Nat) (outLen : Nat) (lits : List Nat)
    (out : List Nat) (rd wr : Nat)
    (heq : inx = pre ++ encTok ⟨lits, none⟩)
    (hne : lits.length ≠ 0) (hlits : lits.length ≤ 7 + V4)
    (hcap : out.length + lits.length ≤ outLen) :
    ∃ rd1 wr1,
      decStep inx outLen pre.length out rd wr = StepRes.done (out ++ lits) rd1 wr1 := by
  subst heq
  rw [encTok_none_assoc]
  rcases Nat.lt_or_ge lits.length 7 with h7 | h7
  · have hf := tokByte_fields lits.length (by omega) 0 (by omega) 0 (by omega)
    simp only [Nat.mul_zero, Nat.add_zero] at hf
    obtain ⟨hshr, _, _, hge32⟩ := hf
    rw [if_neg (by omega : ¬ (7 ≤ lits.length))]
    simp only [List.cons_append, List.singleton_append, List.append_assoc, List.nil_append]
    set tb := lits.length <<< 5 with htb
    have hget : (pre ++ (tb :: lits)).getD pre.length 0 = tb := getD_at_len _ _ _
    have hSlen : (pre ++ (tb :: lits)).length = pre.length + (1 + lits.length) := by
      simp
      omega
    apply Exists.intro
    apply Exists.intro
    simp only [decStep]
    rw [hget, if_pos (hge32.mpr (by omega)), hshr]
    rw [if_neg (by omega : ¬ (lits.length = 7))]
    split
    case isTrue hc =>
      exfalso
      rw [hSlen] at hc
      rcases hc with hc | hc
      all_goals
        first
        | (simp at hc; omega)
        | omega
    case isFalse hc =>
      have htake2 : ((pre ++ (tb :: lits)).drop (pre.length + 1 + (0, 0).2)).take
          (lits.length + (0, 0).1) = lits := by
        have h := take_drop_concat (pre ++ [tb]) lits []
        simpa using h
      rw [htake2]
      have hipeq : pre.length + 1 + (0, 0).2 + (lits.length + (0, 0).1)
          = (pre ++ (tb :: lits)).length := by
        rw [hSlen]
        simp
        omega
      rw [hipeq, if_pos (le_refl _), if_pos rfl]
  · have hf := tokByte_fields 7 (by omega) 0 (by omega) 0 (by omega)
    simp only [Nat.mul_zero, Nat.add_zero] at hf
    obtain ⟨hshr, _, _, hge32⟩ := hf
    rw [if_pos h7]
    simp only [List.cons_append, List.singleton_append, List.append_assoc, List.nil_append]
    set tb := 7 <<< 5 with htb
    set V := EncodeMod (lits.length - 7) with hV
    have hget : (pre ++ (tb :: (V ++ lits))).getD pre.length 0 = tb := getD_at_len _ _ _
    have hSlen : (pre ++ (tb :: (V ++ lits))).length
        = pre.length + (1 + (V.length + lits.length)) := by
      simp
      omega
    have hdm : DecodeModAt (pre ++ (tb :: (V ++ lits))) (pre.length + 1)
        = (lits.length - 7, V.length) := by
      rw [hV]
      exact decodeMod_encodeMod_cons tb (lits.length - 7) (by simp only [V4] at *; omega) pre _
    apply Exists.intro
    apply Exists.intro
    simp only [decStep]
    rw [hget, if_pos (hge32.mpr (by omega)), hshr, if_pos rfl, hdm]
    split
    case isTrue hc =>
      exfalso
      rw [hSlen] at hc
      rcases hc with hc | hc
      all_goals
        first
        | (simp at hc; omega)
        | omega
    case isFalse hc =>
      have htake2 : ((pre ++ (tb :: (V ++ lits))).drop
          (pre.length + 1 + (lits.length - 7, V.length).2)).take
          (7 + (lits.length - 7, V.length).1) = lits := by
        have hrun : 7 + (lits.length - 7, V.length).1 = lits.length := by
          simp
          omega
        have hv2 : (lits.length - 7, V.length).2 = V.length := rfl
        have hassoc2 : pre ++ (tb :: (V ++ lits)) = ((pre ++ [tb]) ++ V) ++ (lits ++ []) := by
          simp
        have hlen2 : pre.length + 1 + V.length = ((pre ++ [tb]) ++ V).length := by
          simp
          omega
        rw [hrun, hv2, hassoc2, hlen2]
        exact take_drop_concat _ _ _
      rw [htake2]
      have hipeq : pre.length + 1 + (lits.length - 7, V.length).2
            + (7 + (lits.length - 7, V.length).1)
          = (pre ++ (tb :: (V ++ lits))).length := by
        rw [hSlen]
        simp
        omega
      rw [hipeq, if_pos (le_refl _), if_pos rfl]

theorem decLoop_next (f : Nat) {inx : List Nat} {outLen ip rd wr ip1 rd1 wr1 : Nat}
    {outl out1 : List Nat} (hip : ip < inx.length)
    (h : decStep inx outLen ip outl rd wr = StepRes.next ip1 out1 rd1 wr1) :
    DecLoop inx outLen (f + 1) ip outl rd wr = DecLoop inx outLen f ip1 out1 rd1 wr1 := by
  simp only [DecLoop]
  rw [if_pos hip, h]

theorem decLoop_done (f : Nat) {inx : List Nat} {outLen ip rd wr rd1 wr1 : Nat}
    {outl out1 : List Nat} (hip : ip < inx.length)
    (h : decStep inx outLen ip outl rd wr = StepRes.done out1 rd1 wr1) :
    DecLoop inx outLen (f + 1) ip outl rd wr = (some out1, rd1, wr1) := by
  simp only [DecLoop]
  rw [if_pos hip, h]

theorem decLoop_err (f : Nat) {inx : List Nat} {outLen ip rd wr rd1 wr1 : Nat}
    {outl : List Nat} (hip : ip < inx.length)
    (h : decStep inx outLen ip outl rd wr = StepRes.err rd1 wr1) :
    DecLoop inx outLen (f + 1) ip outl rd wr = (none, rd1, wr1) := by
  simp only [DecLoop]
  rw [if_pos hip, h]

/-- Decoding a well-formed serialized token stream that ends the input: the
loop succeeds and produces exactly the token semantics. -/
theorem decLoop_toks : ∀ (toks : List Tok) (pre inx : List Nat) (outLen : Nat) (out : List Nat)
    (rd wr fuel : Nat),
    inx = pre ++ encToks toks →
    distOK toks out.length = true → varintOK toks = true → lastOnlyNone toks = true →
    out.length + toksLen toks ≤ outLen →
    inx.length < fuel + pre.length →
    ∃ rd1 wr1, DecLoop inx outLen fuel pre.length out rd wr
      = (some (applyToks out toks), rd1, wr1) := by
  intro toks
  induction toks with
  | nil =>
      intro pre inx outLen out rd wr fuel heq _ _ _ _ hfuel
      subst heq
      simp only [encToks, List.append_nil] at *
      obtain ⟨f, rfl⟩ : ∃ f, fuel = f + 1 := ⟨fuel - 1, by omega⟩
      refine ⟨rd, wr, ?_⟩
      simp only [DecLoop, applyToks]
      rw [if_neg (by omega : ¬ (pre.length < pre.length))]
      simp
  | cons t ts ih =>
      intro pre inx outLen out rd wr fuel heq hdist hvar hlast hcap hfuel
      have hpos := encTok_len_pos t
      have hlen1 : pre.length < inx.length := by
        rw [heq]
        simp only [encToks, List.length_append]
        omega
      obtain ⟨f, rfl⟩ : ∃ f, fuel = f + 1 := ⟨fuel - 1, by omega⟩
      rcases t with ⟨lits, mtch⟩
      rcases mtch with _ | ⟨d, bl⟩
      · -- final literal-only token
        cases ts with
        | cons t2 ts2 =>
            exfalso
            simp [lastOnlyNone] at hlast
        | nil =>
            simp only [lastOnlyNone, Bool.not_eq_true', List.isEmpty_iff] at hlast
            have hne : lits.length ≠ 0 := by
              intro h
              exact absurd (List.length_eq_zero.1 h) (by simpa using hlast)
            simp only [varintOK, Bool.and_eq_true, decide_eq_true_eq] at hvar
            simp only [toksLen, tokLen] at hcap
            have heq2 : inx = pre ++ encTok ⟨lits, none⟩ := by
              rw [heq]
              simp [encToks]
            obtain ⟨rd1, wr1, hstep⟩ := decStep_final pre inx outLen lits out rd wr heq2 hne
              (by tauto) (by omega)
            refine ⟨rd1, wr1, ?_⟩
            rw [decLoop_done f hlen1 hstep]
            simp [applyToks, applyTok]
      · -- match token, possibly more tokens after
        simp only [distOK, Bool.and_eq_true, decide_eq_true_eq] at hdist
        obtain ⟨⟨⟨⟨hbl, hd1⟩, hdw⟩, hdo⟩, hdist2⟩ := hdist
        simp only [varintOK, Bool.and_eq_true, decide_eq_true_eq] at hvar
        obtain ⟨⟨hlitv, hblv⟩, hvar2⟩ := hvar
        simp only [toksLen, tokLen] at hcap
        have heq2 : inx = pre ++ (encTok ⟨lits, some (d, bl)⟩ ++ encToks ts) := by
          rw [heq]
          simp [encToks]
        obtain ⟨rd1, wr1, hstep⟩ := decStep_match pre (encToks ts) inx outLen lits d bl out rd wr
          heq2 hbl hblv hlitv hdw hdo (by omega)
        have hlast2 : lastOnlyNone ts = true := by
          cases ts with
          | nil => rfl
          | cons a b => simpa [lastOnlyNone] using hlast
        have hout2 : (matchCopy (out ++ lits) d bl).length = out.length + lits.length + bl := by
          rw [matchCopy_length]
          simp
        obtain ⟨rd2, wr2, hrec⟩ := ih (pre ++ encTok ⟨lits, some (d, bl)⟩) inx outLen
          (matchCopy (out ++ lits) d bl) rd1 wr1 f
          (by rw [heq]; simp [encToks])
          (by rw [hout2]; exact hdist2)
          hvar2 hlast2
          (by rw [hout2]; omega)
          (by simp only [List.length_append]; omega)
        refine ⟨rd2, wr2, ?_⟩
        rw [decLoop_next f hlen1 hstep]
        have hppos : (pre ++ encTok ⟨lits, some (d, bl)⟩).length
            = pre.length + (encTok ⟨lits, some (d, bl)⟩).length := by simp
        rw [hppos] at hrec
        rw [hrec]
        simp [applyToks, applyTok]

/-! The decoder never lets the logical output exceed the declared capacity. -/

theorem decStep_out_done (inx : List Nat) (outLen ip : Nat) (out o1 : List Nat)
    (rd wr rd1 wr1 : Nat) (hle : out.length ≤ outLen)
    (h : decStep inx outLen ip out rd wr = StepRes.done o1 rd1 wr1) : o1.length ≤ outLen := by
  simp only [decStep, decMatch] at h
  repeat' split at h
  all_goals cases h
  all_goals first
    | omega
    | (simp only [matchCopy_length, List.length_append, List.length_take, List.length_drop] at *
       omega)

theorem decStep_out_next (inx : List Nat) (outLen ip : Nat) (out o1 : List Nat)
    (rd wr ip1 rd1 wr1 : Nat) (hle : out.length ≤ outLen)
    (h : decStep inx outLen ip out rd wr = StepRes.next ip1 o1 rd1 wr1) : o1.length ≤ outLen := by
  simp only [decStep, decMatch] at h
  repeat' split at h
  all_goals cases h
  all_goals first
    | omega
    | (simp only [matchCopy_length, List.length_append, List.length_take, List.length_drop] at *
       omega)

theorem decLoop_out_le : ∀ (fuel : Nat) (inx : List Nat) (outLen ip : Nat) (out o : List Nat)
    (rd wr rd1 wr1 : Nat), out.length ≤ outLen →
    DecLoop inx outLen fuel ip out rd wr = (some o, rd1, wr1) → o.length ≤ outLen := by
  intro fuel
  induction fuel with
  | zero =>
      intro inx outLen ip out o rd wr rd1 wr1 hle heq
      simp [DecLoop] at heq
  | succ f ih =>
      intro inx outLen ip out o rd wr rd1 wr1 hle heq
      simp only [DecLoop] at heq
      by_cases hip : ip < inx.length
      · rw [if_pos hip] at heq
        rcases hds : decStep inx outLen ip out rd wr with ⟨rd2, wr2⟩ | ⟨o1, rd2, wr2⟩
          | ⟨ip1, o1, rd2, wr2⟩ <;> rw [hds] at heq
        · simp at heq
        · simp only [] at heq
          have ho : o1 = o := by
            have := congrArg Prod.fst heq
            simpa using this
          subst ho
          exact decStep_out_done inx outLen ip out o1 rd wr rd2 wr2 hle hds
        · exact ih inx outLen ip1 o1 o rd2 wr2 rd1 wr1
            (decStep_out_next inx outLen ip out o1 rd wr ip1 rd2 wr2 hle hds) heq
      · rw [if_neg hip] at heq
        by_cases hend : ip = inx.length
        · rw [if_pos hend] at heq
          have ho : out = o := by
            have := congrArg Prod.fst heq
            simpa using this
          subst ho
          exact hle
        · rw [if_neg hend] at heq
          simp at heq

/-! Claim theorems. -/

/-- C2: Compress fails (returns the error result, modelled as `none`) exactly
when the level is outside [1, 9]; the check precedes all other work, and for
every level in range the call succeeds on any input and any prior table
contents. -/
theorem ulz_C2 (inx : List Nat) (level : Int) (hash0 prev0 : Nat → Int) :
    (Compress inx level hash0 prev0 = none ↔ (level < 1 ∨ 9 < level)) ∧
    (1 ≤ level → level ≤ 9 → ∃ s, Compress inx level hash0 prev0 = some s) := by
  constructor
  · constructor
    · intro h
      by_contra hn
      push_neg at hn
      unfold Compress at h
      rw [if_neg (by omega)] at h
      exact Option.noConfusion h
    · intro h
      unfold Compress
      rw [if_pos h]
  · intro h1 h2
    unfold Compress
    rw [if_neg (by omega)]
    exact ⟨_, rfl⟩

/-- C2 witness: at input [5, 6] and level 3 the hypotheses hold and Compress
succeeds. -/
theorem ulz_C2_witness :
    (Compress [5, 6] 3 (fun _ => NIL) (fun _ => NIL) = none ↔ ((3 : Int) < 1 ∨ 9 < (3 : Int))) ∧
    ((1 : Int) ≤ 3 → (3 : Int) ≤ 9 →
      ∃ s, Compress [5, 6] 3 (fun _ => NIL) (fun _ => NIL) = some s) :=
  ulz_C2 [5, 6] 3 (fun _ => NIL) (fun _ => NIL)

/-- C3 counterexample: DecodeMod on the bytes [128, 0] returns the value 128,
not the value 0 that the claimed sum of (byte AND 127) << 7i formulas gives;
the decode accumulates full byte values, continuation bit included. -/
theorem ulz_C3_cex :
    DecodeModAt [128, 0] 0 = (128, 2) ∧
    (DecodeModAt [128, 0] 0).1 ≠ (128 &&& 127) + ((0 &&& 127) <<< 7) := by
  decide

/-- C3 amended: EncodeMod emits continuation bytes with the high bit set and a
final byte below 128, and DecodeMod accumulates the full byte values (the
continuation bit included, not byte AND 127) in 7-bit shift steps, stopping at
the first byte with a clear high bit and consuming at most 4 bytes. -/
theorem ulz_C3_amended :
    (∀ x : Nat, ∃ bs b, EncodeMod x = bs ++ [b] ∧ (∀ c ∈ bs, 128 ≤ c ∧ c < 256) ∧ b < 128) ∧
    (∀ (inx : List Nat) (i : Nat),
      1 ≤ (DecodeModAt inx i).2 ∧ (DecodeModAt inx i).2 ≤ 4 ∧
      (DecodeModAt inx i).1 =
        (List.range (DecodeModAt inx i).2).foldr
          (fun k acc => inx.getD (i + k) 0 * 2 ^ (7 * k) + acc) 0 ∧
      (∀ k, k + 1 < (DecodeModAt inx i).2 → 128 ≤ inx.getD (i + k) 0) ∧
      ((DecodeModAt inx i).2 < 4 → inx.getD (i + ((DecodeModAt inx i).2 - 1)) 0 < 128)) := by
  refine ⟨encodeMod_shape, ?_⟩
  intro inx i
  rcases Nat.lt_or_ge (inx.getD i 0) 128 with h0 | h0
  · have he : DecodeModAt inx i = (inx.getD i 0, 1) := by
      simp only [DecodeModAt]
      rw [if_pos h0]
    rw [he]
    refine ⟨by norm_num, by norm_num, ?_, ?_, ?_⟩
    · have hr : List.range 1 = [0] := by decide
      rw [hr]
      simp only [List.foldr_cons, List.foldr_nil]
      norm_num
    · intro k hk
      omega
    · intro _
      simpa using h0
  · rcases Nat.lt_or_ge (inx.getD (i + 1) 0) 128 with h1 | h1
    · have he : DecodeModAt inx i = (inx.getD i 0 + (inx.getD (i + 1) 0 <<< 7), 2) := by
        simp only [DecodeModAt]
        rw [if_neg (Nat.not_lt.2 h0), if_pos h1]
      rw [he]
      refine ⟨by norm_num, by norm_num, ?_, ?_, ?_⟩
      · have hr : List.range 2 = [0, 1] := by decide
        rw [hr]
        simp only [List.foldr_cons, List.foldr_nil, shl7]
        norm_num
      · intro k hk
        have hk0 : k = 0 := by omega
        subst hk0
        simpa using h0
      · intro _
        simpa using h1
    · rcases Nat.lt_or_ge (inx.getD (i + 2) 0) 128 with h2 | h2
      · have he : DecodeModAt inx i
            = (inx.getD i 0 + (inx.getD (i + 1) 0 <<< 7) + (inx.getD (i + 2) 0 <<< 14), 3) := by
          simp only [DecodeModAt]
          rw [if_neg (Nat.not_lt.2 h0), if_neg (Nat.not_lt.2 h1), if_pos h2]
        rw [he]
        refine ⟨by norm_num, by norm_num, ?_, ?_, ?_⟩
        · have hr : List.range 3 = [0, 1, 2] := by decide
          rw [hr]
          simp only [List.foldr_cons, List.foldr_nil, shl7, shl14]
          norm_num
          omega
        · intro k hk
          rcases (by omega : k = 0 ∨ k = 1) with rfl | rfl
          · simpa using h0
          · simpa using h1
        · intro _
          simpa using h2
      · have he : DecodeModAt inx i
            = (inx.getD i 0 + (inx.getD (i + 1) 0 <<< 7) + (inx.getD (i + 2) 0 <<< 14)
                + (inx.getD (i + 3) 0 <<< 21), 4) := by
          simp only [DecodeModAt]
          rw [if_neg (Nat.not_lt.2 h0), if_neg (Nat.not_lt.2 h1), if_neg (Nat.not_lt.2 h2)]
        rw [he]
        refine ⟨by norm_num, by norm_num, ?_, ?_, ?_⟩
        · have hr : List.range 4 = [0, 1, 2, 3] := by decide
          rw [hr]
          simp only [List.foldr_cons, List.foldr_nil, shl7, shl14, shl21]
          norm_num
          omega
        · intro k hk
          rcases (by omega : k = 0 ∨ k = 1 ∨ k = 2) with rfl | rfl | rfl
          · simpa using h0
          · simpa using h1
          · simpa using h2
        · intro h
          omega

/-- C6 counterexample: Decompress of the empty stream with a declared output
length of 1 succeeds having written 0 bytes, so success does not imply that
the bytes written equal the declared output length. -/
theorem ulz_C6_cex :
    (Decompress [] 1).1 = some [] ∧ ([] : List Nat).length ≠ 1 := by
  constructor
  · rfl
  · decide

/-- C6 amended: whenever Decompress succeeds, the number of bytes written is
at most (not necessarily equal to) the declared output length; the equality
claimed by the spec holds only for streams that actually fill the declared
buffer, such as those produced by the compressor with the original length
declared (the round-trip theorem). -/
theorem ulz_C6_amended (inx : List Nat) (outLen : Nat) (o : List Nat)
    (h : (Decompress inx outLen).1 = some o) : o.length ≤ outLen := by
  have heq : DecLoop inx outLen (inx.length + 1) 0 [] 0 0
      = (some o, (Decompress inx outLen).2.1, (Decompress inx outLen).2.2) := by
    have : Decompress inx outLen = (some o, (Decompress inx outLen).2.1,
        (Decompress inx outLen).2.2) := by
      rw [← h]
    exact this
  exact decLoop_out_le (inx.length + 1) inx outLen 0 [] o 0 0 _ _ (by simp) heq

/-- C6 amended witness: the two-byte stream [32, 65] decodes to [65] with a
declared capacity of 5, and 1 is at most 5. -/
theorem ulz_C6_witness : ([65] : List Nat).length ≤ 5 :=
  ulz_C6_amended [32, 65] 5 [65] (by decide)

/-- C9: for every value below 2^27, DecodeMod run on the bytes EncodeMod
emitted (in any surrounding stream) returns exactly that value, consuming
exactly the emitted bytes, which number at most 4. -/
theorem ulz_C9 (x : Nat) (hx : x < 134217728) (pre post : List Nat) :
    DecodeModAt (pre ++ (EncodeMod x ++ post)) pre.length = (x, (EncodeMod x).length) ∧
    (EncodeMod x).length ≤ 4 :=
  ⟨decodeMod_encodeMod x (by simp only [V4]; omega) pre post,
   encodeMod_length_le x (by simp only [V4]; omega)⟩

/-- C9 witness: concrete check at x = 1000000 inside a surrounding stream. -/
theorem ulz_C9_witness :
    DecodeModAt ([7] ++ (EncodeMod 1000000 ++ [9])) [7].length
      = (1000000, (EncodeMod 1000000).length) ∧ (EncodeMod 1000000).length ≤ 4 :=
  ulz_C9 1000000 (by norm_num) [7] [9]

/-- C10: the stream [0, 0, 0] carries a match token whose combined 17-bit
distance is 0 while zero output bytes have been produced; the range check
passes and Decompress proceeds with the copy, returning success with 4 bytes
written rather than the error result. -/
theorem ulz_C10 : (Decompress [0, 0, 0] 4).1 = some [0, 0, 0, 0] := by
  rfl

/-! Encoder-side building blocks: the 4-byte screening load really certifies
4 equal bytes, the extension loop certifies the extended bytes, and a
certified back-reference copy reproduces the input. -/

theorem load32_bytes {inx : List Nat} (hB : Bytes inx) (s p : Nat)
    (h : load32 inx s = load32 inx p) (k : Nat) (hk : k < 4) :
    inx.getD (s + k) 0 = inx.getD (p + k) 0 := by
  have b0 := getD_lt_256 hB s
  have b1 := getD_lt_256 hB (s + 1)
  have b2 := getD_lt_256 hB (s + 2)
  have b3 := getD_lt_256 hB (s + 3)
  have c0 := getD_lt_256 hB p
  have c1 := getD_lt_256 hB (p + 1)
  have c2 := getD_lt_256 hB (p + 2)
  have c3 := getD_lt_256 hB (p + 3)
  unfold load32 at h
  rw [shl8, shl16, shl24, shl8, shl16, shl24] at h
  rcases (by omega : k = 0 ∨ k = 1 ∨ k = 2 ∨ k = 3) with rfl | rfl | rfl | rfl
  · simpa using (by omega : inx.getD s 0 = inx.getD p 0)
  · omega
  · omega
  · omega

theorem matchLen_spec (inx : List Nat) (s p maxm : Nat) : ∀ (fuel len : Nat),
    len ≤ maxm → maxm - len ≤ fuel →
    (∀ i, i < len → inx.getD (s + i) 0 = inx.getD (p + i) 0) →
    len ≤ matchLen inx s p maxm fuel len ∧ matchLen inx s p maxm fuel len ≤ maxm ∧
    (∀ i, i < matchLen inx s p maxm fuel len → inx.getD (s + i) 0 = inx.getD (p + i) 0) := by
  intro fuel
  induction fuel with
  | zero =>
      intro len hle hf hc
      simp only [matchLen]
      exact ⟨le_refl _, hle, hc⟩
  | succ f ih =>
      intro len hle hf hc
      simp only [matchLen]
      split
      case isTrue hcond =>
        have hc2 : ∀ i, i < len + 1 → inx.getD (s + i) 0 = inx.getD (p + i) 0 := by
          intro i hi
          rcases Nat.lt_or_ge i len with h | h
          · exact hc i h
          · have : i = len := by omega
            subst this
            exact hcond.2
        obtain ⟨h1, h2, h3⟩ := ih (len + 1) (by omega) (by omega) hc2
        exact ⟨by omega, h2, h3⟩
      case isFalse hcond =>
        exact ⟨le_refl _, hle, hc⟩

theorem take_getD {inx : List Nat} {p j : Nat} (hj : j < p) :
    (inx.take p).getD j 0 = inx.getD j 0 := by
  rcases Nat.lt_or_ge j inx.length with h | h
  · have h2 : j < (inx.take p).length := by
      rw [List.length_take]
      omega
    rw [List.getD_eq_getElem _ _ h2, List.getD_eq_getElem _ _ h]
    simp [List.getElem_take]
  · rw [List.getD_eq_default, List.getD_eq_default _ _ h]
    rw [List.length_take]
    omega

theorem take_snoc {inx : List Nat} {p : Nat} (hp : p < inx.length) :
    inx.take p ++ [inx.getD p 0] = inx.take (p + 1) := by
  rw [List.take_succ, List.getElem?_eq_getElem hp, List.getD_eq_getElem _ _ hp]
  rfl

theorem matchCopy_take (inx : List Nat) (dist : Nat) (hd1 : 1 ≤ dist) :
    ∀ (bl p : Nat), dist ≤ p → p + bl ≤ inx.length →
    (∀ i, i < bl → inx.getD (p + i) 0 = inx.getD (p + i - dist) 0) →
    matchCopy (inx.take p) dist bl = inx.take (p + bl) := by
  intro bl
  induction bl with
  | zero =>
      intro p hdp hlen hc
      simp [matchCopy]
  | succ n ih =>
      intro p hdp hlen hc
      simp only [matchCopy]
      have hp : p < inx.length := by omega
      have hlt : (inx.take p).length = p := by
        rw [List.length_take]
        omega
      have hbyte : (inx.take p).getD ((inx.take p).length - dist) 0 = inx.getD p 0 := by
        rw [hlt, take_getD (by omega : p - dist < p)]
        have := hc 0 (by omega)
        simpa using this.symm
      rw [hbyte, take_snoc hp]
      have hrec := ih (p + 1) (by omega) (by omega) (by
        intro i hi
        have := hc (i + 1) (by omega)
        have harith : p + (i + 1) = p + 1 + i := by omega
        rw [harith] at this
        exact this)
      rw [hrec]
      congr 1
      omega

theorem inv_upd {tbl : Nat → Int} {b : Int}
    (hinv : ∀ h, tbl h = NIL ∨ (0 ≤ tbl h ∧ tbl h < b)) (i : Nat) (v : Int)
    (hv0 : 0 ≤ v) (hvb : v < b) :
    ∀ h, upd tbl i v h = NIL ∨ (0 ≤ upd tbl i v h ∧ upd tbl i v h < b) := by
  intro h
  unfold upd
  split
  · exact Or.inr ⟨hv0, hvb⟩
  · exact hinv h

theorem inv_mono {tbl : Nat → Int} {b b' : Int}
    (hinv : ∀ h, tbl h = NIL ∨ (0 ≤ tbl h ∧ tbl h < b)) (hbb : b ≤ b') :
    ∀ h, tbl h = NIL ∨ (0 ≤ tbl h ∧ tbl h < b') := by
  intro h
  rcases hinv h with h1 | ⟨h1, h2⟩
  · exact Or.inl h1
  · exact Or.inr ⟨h1, lt_of_lt_of_le h2 hbb⟩

theorem take_slice {inx : List Nat} {anchor p : Nat} (ha : anchor ≤ p) :
    inx.take anchor ++ (inx.drop anchor).take (p - anchor) = inx.take p := by
  have h1 := (List.take_add inx anchor (p - anchor)).symm
  have h2 : anchor + (p - anchor) = p := by omega
  rwa [h2] at h1

theorem slice_length (inx : List Nat) {anchor p : Nat} (ha : anchor ≤ p) (hp : p ≤ inx.length) :
    ((inx.drop anchor).take (p - anchor)).length = p - anchor := by
  rw [List.length_take, List.length_drop]
  omega

theorem lastOnlyNone_cons_some {lits : List Nat} {d bl : Nat} {ts : List Tok}
    (h : lastOnlyNone ts = true) :
    lastOnlyNone (⟨lits, some (d, bl)⟩ :: ts) = true := by
  cases ts with
  | nil => rfl
  | cons t2 ts2 => simpa [lastOnlyNone] using h

theorem matchLen_bounds (inx : List Nat) (s p maxm : Nat) : ∀ (fuel len : Nat),
    len ≤ maxm →
    len ≤ matchLen inx s p maxm fuel len ∧ matchLen inx s p maxm fuel len ≤ maxm := by
  intro fuel
  induction fuel with
  | zero =>
      intro len hle
      simp only [matchLen]
      exact ⟨le_refl _, hle⟩
  | succ f ih =>
      intro len hle
      simp only [matchLen]
      split
      · rename_i hc
        obtain ⟨h1, h2⟩ := ih (len + 1) (by omega)
        exact ⟨by omega, h2⟩
      · exact ⟨le_refl _, hle⟩

/-- Master lemma for the fast encoder: from any state satisfying the table
invariant (every bucket NIL or a previously scanned position), the produced
token stream has in-range distances and proper structure; under the byte and
length side conditions it moreover fits the varint widths and reproduces the
input. -/
theorem fastLoop_spec (inx : List Nat) :
    ∀ (fuel anchor p : Nat) (tbl : Nat → Int),
    anchor ≤ p → p ≤ inx.length → inx.length < fuel + p →
    (∀ hh, tbl hh = NIL ∨ (0 ≤ tbl hh ∧ tbl hh < (p : Int))) →
    distOK (fastLoop inx fuel tbl anchor p) anchor = true ∧
    (inx.length ≤ 7 + V4 → varintOK (fastLoop inx fuel tbl anchor p) = true) ∧
    lastOnlyNone (fastLoop inx fuel tbl anchor p) = true ∧
    (Bytes inx → applyToks (inx.take anchor) (fastLoop inx fuel tbl anchor p) = inx) ∧
    anchor + toksLen (fastLoop inx fuel tbl anchor p) = inx.length := by
  intro fuel
  induction fuel with
  | zero =>
      intro anchor p tbl ha hp hf htbl
      exact absurd hf (by omega)
  | succ f ih =>
      intro anchor p tbl ha hp hf htbl
      by_cases hplen : p < inx.length
      case neg =>
        have hpl : p = inx.length := by omega
        have hsl := slice_length inx ha hp
        simp only [fastLoop]
        rw [if_neg hplen]
        by_cases hap : anchor ≠ p
        · rw [if_pos hap]
          refine ⟨rfl, ?_, ?_, ?_, ?_⟩
          · intro hN
            simp [varintOK]
            simp only [V4] at hN ⊢
            omega
          · rcases hq : (inx.drop anchor).take (p - anchor) with _ | ⟨b, l⟩
            · rw [hq] at hsl
              simp at hsl
              omega
            · rfl
          · intro hB
            simp only [applyToks, applyTok]
            rw [take_slice ha, hpl, List.take_length]
          · simp only [toksLen, tokLen]
            omega
        · rw [if_neg hap]
          have hae : anchor = p := by omega
          refine ⟨rfl, fun _ => rfl, rfl, ?_, ?_⟩
          · intro hB
            simp only [applyToks]
            rw [hae, hpl, List.take_length]
          · simp only [toksLen]
            omega
      case pos =>
        have hsl := slice_length inx ha (le_of_lt hplen)
        have h40 : ¬ (MIN_MATCH ≤ (0 : Nat)) := by decide
        have h04 : ¬ ((0 : Nat) = MIN_MATCH) := by decide
        simp only [fastLoop]
        rw [if_pos hplen]
        by_cases hmm4 : MIN_MATCH ≤ inx.length - p
        · by_cases hsc : max ((p : Int) - (WINDOW_SIZE : Int)) NIL < tbl (Hash32 inx p) ∧
              load32 inx ((tbl (Hash32 inx p)).toNat) = load32 inx p
          · -- a screened candidate: the probe yields a real match length
            have hsc1 := hsc.1
            have hsc2copy := hsc.2
            have hsnil : tbl (Hash32 inx p) ≠ NIL := by
              intro h0
              rw [h0] at hsc1
              simp only [NIL] at hsc1
              omega
            rcases htbl (Hash32 inx p) with h0 | ⟨hs0, hsp⟩
            · exact absurd h0 hsnil
            have hsncast : ((tbl (Hash32 inx p)).toNat : Int) = tbl (Hash32 inx p) :=
              Int.toNat_of_nonneg hs0
            set sn := (tbl (Hash32 inx p)).toNat with hsndef
            have hsnp : sn < p := by omega
            have hdW : p - sn < WINDOW_SIZE := by
              simp only [NIL, WINDOW_SIZE] at hsc1 ⊢
              omega
            obtain ⟨hml1, hml2⟩ := matchLen_bounds inx sn p (inx.length - p)
              (inx.length - p) MIN_MATCH hmm4
            set mlen := matchLen inx sn p (inx.length - p) (inx.length - p) MIN_MATCH with hmldef
            have hml4 : 4 ≤ mlen := by
              simp only [MIN_MATCH] at hml1
              exact hml1
            by_cases hrej : mlen = MIN_MATCH ∧ 7 + 128 ≤ p - anchor
            · -- long-pending-run rejection demotes the match to a literal step
              simp only [hmm4, hsc, hrej, h40, ite_true, ite_false, if_true, if_false,
                true_and, and_true]
              exact ih anchor (p + 1) (upd tbl (Hash32 inx p) (p : Int)) (by omega) (by omega)
                (by omega) (inv_upd (inv_mono htbl (by omega)) (Hash32 inx p) (p : Int)
                  (by omega) (by omega))
            · -- emit the match token
              simp only [hmm4, hsc, hrej, hml1, ite_true, ite_false, if_true, if_false,
                true_and, and_true]
              have hb0 : ∀ hh, tbl hh = NIL ∨ (0 ≤ tbl hh ∧ tbl hh < ((p + mlen : Nat) : Int)) :=
                inv_mono htbl (by omega)
              have hb1 := inv_upd hb0 (Hash32 inx p) (p : Int) (by omega) (by omega)
              have hb2 := inv_upd hb1 (Hash32 inx (p + 1)) ((p : Int) + 1) (by omega) (by omega)
              have hb3 := inv_upd hb2 (Hash32 inx (p + 2)) ((p : Int) + 2) (by omega) (by omega)
              have hb4 := inv_upd hb3 (Hash32 inx (p + 3)) ((p : Int) + 3) (by omega) (by omega)
              obtain ⟨ihd, ihv, ihl, iha, iht⟩ := ih (p + mlen) (p + mlen) _ le_rfl (by omega)
                (by omega) hb4
              refine ⟨?_, ?_, ?_, ?_, ?_⟩
              · simp only [distOK, hsl, Bool.and_eq_true, decide_eq_true_eq]
                refine ⟨⟨⟨⟨hml1, by omega⟩, hdW⟩, by omega⟩, ?_⟩
                have harith : anchor + (p - anchor) + mlen = p + mlen := by omega
                rw [harith]
                exact ihd
              · intro hN
                simp only [varintOK, hsl, Bool.and_eq_true, decide_eq_true_eq]
                refine ⟨⟨?_, ?_⟩, ihv hN⟩
                · simp only [V4] at hN ⊢
                  omega
                · simp only [V4] at hN ⊢
                  omega
              · exact lastOnlyNone_cons_some ihl
              · intro hB
                have hload4 : ∀ k, k < 4 → inx.getD (sn + k) 0 = inx.getD (p + k) 0 :=
                  fun k hk => load32_bytes hB sn p hsc.2 k hk
                obtain ⟨hq1, hq2, hml3⟩ := matchLen_spec inx sn p (inx.length - p)
                  (inx.length - p) MIN_MATCH hmm4 (by omega)
                  (fun i hi => hload4 i (by simp only [MIN_MATCH] at hi; exact hi))
                rw [← hmldef] at hml3
                simp only [applyToks, applyTok]
                rw [take_slice ha]
                have hmc : matchCopy (inx.take p) (p - sn) mlen = inx.take (p + mlen) := by
                  refine matchCopy_take inx (p - sn) (by omega) mlen p (by omega) (by omega) ?_
                  intro i hi
                  have h1 := hml3 i hi
                  have h2 : p + i - (p - sn) = sn + i := by omega
                  rw [h2]
                  exact h1.symm
                rw [hmc]
                exact iha hB
              · simp only [toksLen, tokLen]
                omega
          · -- failed screen: hash updated, literal step
            simp only [hmm4, hsc, h40, h04, ite_true, ite_false, if_true, if_false,
              false_and, true_and, and_true]
            exact ih anchor (p + 1) (upd tbl (Hash32 inx p) (p : Int)) (by omega) (by omega)
              (by omega) (inv_upd (inv_mono htbl (by omega)) (Hash32 inx p) (p : Int)
                (by omega) (by omega))
        · -- tail shorter than MIN_MATCH: literal step, table untouched
          simp only [hmm4, h40, h04, ite_true, ite_false, if_true, if_false,
            false_and, true_and, and_true]
          exact ih anchor (p + 1) tbl (by omega) (by omega) (by omega)
            (inv_mono htbl (by omega))

/-! Decoder access bounds: every input offset read and output offset written
stays within the EXCESS guard region past the declared buffer ends. -/

theorem wildLen_le (n : Nat) : wildLen n ≤ n + 8 := by
  unfold wildLen
  omega

theorem decodeModAt_snd_le (inx : List Nat) (i : Nat) : (DecodeModAt inx i).2 ≤ 4 := by
  simp only [DecodeModAt]
  repeat' split
  all_goals simp

theorem decMatch_bounds (inx : List Nat) (outLen token ipm : Nat) (outm : List Nat)
    (rdm wrm : Nat) (hipm : ipm ≤ inx.length) (hout : outm.length ≤ outLen)
    (hrd : rdm ≤ inx.length + EXCESS) (hwr : wrm ≤ outLen + EXCESS) :
    decBounds inx.length outLen (decMatch inx outLen token ipm outm rdm wrm) := by
  have hm2raw := decodeModAt_snd_le inx ipm
  have hEX : EXCESS = 16 := rfl
  have hMM : MIN_MATCH = 4 := rfl
  simp only [decMatch]
  set m2 := if (token &&& 15) + MIN_MATCH = 15 + MIN_MATCH then DecodeModAt inx ipm
    else ((0, 0) : Nat × Nat) with hm2def
  have hm2 : m2.2 ≤ 4 := by
    rw [hm2def]
    split
    · exact hm2raw
    · decide
  have hwl := wildLen_le ((token &&& 15) + MIN_MATCH + m2.1)
  split
  case isTrue hcap =>
    exact ⟨by omega, by omega⟩
  case isFalse hcap =>
    split
    case isTrue hrange =>
      exact ⟨by omega, by omega⟩
    case isFalse hrange =>
      refine ⟨by omega, ?_, ?_⟩
      · have hb : (outm.length + if 8 ≤ ((token &&& 16) <<< 12) + load16 inx (ipm + m2.2)
            then wildLen ((token &&& 15) + MIN_MATCH + m2.1)
            else (token &&& 15) + MIN_MATCH + m2.1) ≤ outLen + EXCESS := by
          split
          · omega
          · omega
        omega
      · rw [matchCopy_length]
        omega

theorem decStep_bounds (inx : List Nat) (outLen ip : Nat) (out : List Nat) (rd wr : Nat)
    (hip : ip < inx.length) (hout : out.length ≤ outLen)
    (hrd : rd ≤ inx.length + EXCESS) (hwr : wr ≤ outLen + EXCESS) :
    decBounds inx.length outLen (decStep inx outLen ip out rd wr) := by
  have hEX : EXCESS = 16 := rfl
  have hm1raw := decodeModAt_snd_le inx (ip + 1)
  simp only [decStep]
  by_cases htok : 32 ≤ inx.getD ip 0
  · rw [if_pos htok]
    set m := if inx.getD ip 0 >>> 5 = 7 then DecodeModAt inx (ip + 1)
      else ((0, 0) : Nat × Nat) with hmdef
    have hm : m.2 ≤ 4 := by
      rw [hmdef]
      split
      · exact hm1raw
      · decide
    have hwl := wildLen_le (inx.getD ip 0 >>> 5 + m.1)
    split
    · rename_i hchk
      exact ⟨by omega, by omega⟩
    · rename_i hchk
      split
      · rename_i hend
        split
        · rename_i heq
          exact ⟨by omega, by omega⟩
        · rename_i hne
          exact ⟨by omega, by omega⟩
      · rename_i hend
        exact decMatch_bounds inx outLen (inx.getD ip 0) _ _ _ _ (by omega)
          (by simp only [List.length_append, List.length_take, List.length_drop]; omega)
          (by omega) (by omega)
  · rw [if_neg htok]
    exact decMatch_bounds inx outLen (inx.getD ip 0) (ip + 1) out (max rd (ip + 1)) wr
      (by omega) hout (by omega) hwr

theorem decLoop_bounds : ∀ (fuel : Nat) (inx : List Nat) (outLen ip : Nat) (out : List Nat)
    (rd wr : Nat), out.length ≤ outLen → rd ≤ inx.length + EXCESS → wr ≤ outLen + EXCESS →
    (DecLoop inx outLen fuel ip out rd wr).2.1 ≤ inx.length + EXCESS ∧
    (DecLoop inx outLen fuel ip out rd wr).2.2 ≤ outLen + EXCESS := by
  intro fuel
  induction fuel with
  | zero =>
      intro inx outLen ip out rd wr hout hrd hwr
      exact ⟨hrd, hwr⟩
  | succ f ih =>
      intro inx outLen ip out rd wr hout hrd hwr
      simp only [DecLoop]
      split
      case isTrue hip =>
        have hb := decStep_bounds inx outLen ip out rd wr hip hout hrd hwr
        rcases hres : decStep inx outLen ip out rd wr with ⟨rd1, wr1⟩ | ⟨o, rd1, wr1⟩
          | ⟨ip1, o, rd1, wr1⟩
        · rw [hres] at hb
          exact hb
        · rw [hres] at hb
          exact hb
        · rw [hres] at hb
          obtain ⟨h1, h2, h3⟩ := hb
          exact ih inx outLen ip1 o rd1 wr1 h3 h1 h2
      case isFalse hip =>
        exact ⟨hrd, hwr⟩

/-- The chain walk only ever visits table entries below the scan position, so
its result is an in-range candidate (or still the accumulator it was given). -/
theorem chainStep_bounds (inx : List Nat) (prevT : Nat → Int) (p maxm : Nat)
    (hm4 : MIN_MATCH ≤ maxm)
    (hprev : ∀ q, q < p → prevT (q &&& WINDOW_MASK) = NIL ∨
       (0 ≤ prevT (q &&& WINDOW_MASK) ∧ prevT (q &&& WINDOW_MASK) < (p : Int))) :
    ∀ (cl : Nat) (s : Int) (bl d : Nat),
    (s = NIL ∨ (0 ≤ s ∧ s < (p : Int))) →
    goodMatch inx p maxm bl d →
    goodMatch inx p maxm
      (chainStep inx prevT (max ((p : Int) - (WINDOW_SIZE : Int)) NIL) p maxm cl s bl d).1
      (chainStep inx prevT (max ((p : Int) - (WINDOW_SIZE : Int)) NIL) p maxm cl s bl d).2 := by
  intro cl
  induction cl with
  | zero =>
      intro s bl d hs hacc
      simpa only [chainStep] using hacc
  | succ c ih =>
      intro s bl d hs hacc
      simp only [chainStep]
      by_cases hls : max ((p : Int) - (WINDOW_SIZE : Int)) NIL < s
      · rw [if_pos hls]
        have hs0 : 0 ≤ s := by
          simp only [NIL] at hls
          omega
        have hsp : s < (p : Int) := by
          rcases hs with h0 | ⟨h1, h2⟩
          · exfalso
            simp only [NIL] at hls h0
            omega
          · exact h2
        have hsn : (s.toNat : Int) = s := Int.toNat_of_nonneg hs0
        have hsnp : s.toNat < p := by omega
        have hsW : p - s.toNat < WINDOW_SIZE := by
          simp only [NIL, WINDOW_SIZE] at hls ⊢
          omega
        have hrec := hprev s.toNat hsnp
        by_cases hscr : inx.getD (s.toNat + bl) 0 = inx.getD (p + bl) 0 ∧
            load32 inx s.toNat = load32 inx p
        · rw [if_pos hscr]
          obtain ⟨hq1, hq2⟩ := matchLen_bounds inx s.toNat p maxm maxm MIN_MATCH hm4
          by_cases hlt : bl < matchLen inx s.toNat p maxm maxm MIN_MATCH
          · rw [if_pos hlt]
            have hnew : goodMatch inx p maxm (matchLen inx s.toNat p maxm maxm MIN_MATCH)
                (p - s.toNat) := by
              refine Or.inr ⟨hq1, hq2, by omega, by omega, hsW, ?_⟩
              intro hB i hi
              obtain ⟨hw1, hw2, hml3⟩ := matchLen_spec inx s.toNat p maxm maxm MIN_MATCH hm4
                (by omega)
                (fun j hj => load32_bytes hB s.toNat p hscr.2 j
                  (by simp only [MIN_MATCH] at hj; exact hj))
              have h1 := hml3 i hi
              have h2 : p + i - (p - s.toNat) = s.toNat + i := by omega
              rw [h2]
              exact h1.symm
            by_cases hmx : matchLen inx s.toNat p maxm maxm MIN_MATCH = maxm
            · rw [if_pos hmx]
              exact hnew
            · rw [if_neg hmx]
              by_cases hc0 : c = 0
              · rw [if_pos hc0]
                exact hnew
              · rw [if_neg hc0]
                exact ih (prevT (s.toNat &&& WINDOW_MASK))
                  (matchLen inx s.toNat p maxm maxm MIN_MATCH) (p - s.toNat) hrec hnew
          · rw [if_neg hlt]
            by_cases hc0 : c = 0
            · rw [if_pos hc0]
              exact hacc
            · rw [if_neg hc0]
              exact ih (prevT (s.toNat &&& WINDOW_MASK)) bl d hrec hacc
        · rw [if_neg hscr]
          by_cases hc0 : c = 0
          · rw [if_pos hc0]
            exact hacc
          · rw [if_neg hc0]
            exact ih (prevT (s.toNat &&& WINDOW_MASK)) bl d hrec hacc
      · rw [if_neg hls]
        exact hacc

/-- Chained insertion of `n` consecutive positions preserves the table
invariants, advancing their bound to `p + n`. -/
theorem insertN_inv (inx : List Nat) : ∀ (n : Nat) (hashT prevT : Nat → Int) (p : Nat),
    (∀ hh, hashT hh = NIL ∨ (0 ≤ hashT hh ∧ hashT hh < (p : Int))) →
    (∀ q, q < p → prevT (q &&& WINDOW_MASK) = NIL ∨
      (0 ≤ prevT (q &&& WINDOW_MASK) ∧ prevT (q &&& WINDOW_MASK) < (p : Int))) →
    (∀ hh, (insertN inx n hashT prevT p).1 hh = NIL ∨
       (0 ≤ (insertN inx n hashT prevT p).1 hh ∧
        (insertN inx n hashT prevT p).1 hh < ((p + n : Nat) : Int))) ∧
    (∀ q, q < p + n → (insertN inx n hashT prevT p).2 (q &&& WINDOW_MASK) = NIL ∨
       (0 ≤ (insertN inx n hashT prevT p).2 (q &&& WINDOW_MASK) ∧
        (insertN inx n hashT prevT p).2 (q &&& WINDOW_MASK) < ((p + n : Nat) : Int))) := by
  intro n
  induction n with
  | zero =>
      intro hashT prevT p hh hp
      simp only [insertN]
      refine ⟨inv_mono hh (by omega), fun q hq => ?_⟩
      rcases hp q (by omega) with h0 | ⟨h1, h2⟩
      · exact Or.inl h0
      · exact Or.inr ⟨h1, by omega⟩
  | succ n ihn =>
      intro hashT prevT p hh hp
      simp only [insertN]
      have hh1 : ∀ a, upd hashT (Hash32 inx p) (p : Int) a = NIL ∨
          (0 ≤ upd hashT (Hash32 inx p) (p : Int) a ∧
           upd hashT (Hash32 inx p) (p : Int) a < ((p + 1 : Nat) : Int)) :=
        inv_upd (inv_mono hh (by omega)) (Hash32 inx p) ((p : Nat) : Int) (by omega) (by omega)
      have hp1 : ∀ q, q < p + 1 →
          upd prevT (p &&& WINDOW_MASK) (hashT (Hash32 inx p)) (q &&& WINDOW_MASK) = NIL ∨
          (0 ≤ upd prevT (p &&& WINDOW_MASK) (hashT (Hash32 inx p)) (q &&& WINDOW_MASK) ∧
           upd prevT (p &&& WINDOW_MASK) (hashT (Hash32 inx p)) (q &&& WINDOW_MASK)
             < ((p + 1 : Nat) : Int)) := by
        intro q hq
        unfold upd
        split
        · rcases hh (Hash32 inx p) with h0 | ⟨h1, h2⟩
          · exact Or.inl h0
          · exact Or.inr ⟨h1, by omega⟩
        · rename_i hne
          have hqp : q ≠ p := fun he => hne (by rw [he])
          rcases hp q (by omega) with h0 | ⟨h1, h2⟩
          · exact Or.inl h0
          · exact Or.inr ⟨h1, by omega⟩
      have hres := ihn (upd hashT (Hash32 inx p) (p : Int))
        (upd prevT (p &&& WINDOW_MASK) (hashT (Hash32 inx p))) (p + 1) hh1 hp1
      have harith : p + 1 + n = p + (n + 1) := by omega
      rw [harith] at hres
      exact hres

/-- The emission step of the normal encoder: a good chain-search result of
length at least MIN_MATCH yields a well-formed token, and the recursion
(through the chained insertion of the covered positions) handles the rest. -/
theorem compressEmit (inx : List Nat) (level : Int) (maxChain : Nat) (f : Nat)
    (ih : ∀ (anchor p : Nat) (hashT prevT : Nat → Int),
      anchor ≤ p → p ≤ inx.length → inx.length < f + p →
      (∀ hh, hashT hh = NIL ∨ (0 ≤ hashT hh ∧ hashT hh < (p : Int))) →
      (∀ q, q < p → prevT (q &&& WINDOW_MASK) = NIL ∨
        (0 ≤ prevT (q &&& WINDOW_MASK) ∧ prevT (q &&& WINDOW_MASK) < (p : Int))) →
      distOK (compressLoop inx level maxChain f hashT prevT anchor p) anchor = true ∧
      (inx.length ≤ 7 + V4 →
        varintOK (compressLoop inx level maxChain f hashT prevT anchor p) = true) ∧
      lastOnlyNone (compressLoop inx level maxChain f hashT prevT anchor p) = true ∧
      (Bytes inx →
        applyToks (inx.take anchor) (compressLoop inx level maxChain f hashT prevT anchor p)
          = inx) ∧
      anchor + toksLen (compressLoop inx level maxChain f hashT prevT anchor p) = inx.length)
    (anchor p : Nat) (hashT prevT : Nat → Int) (bl d : Nat)
    (ha : anchor ≤ p) (hplen : p < inx.length) (hf : inx.length < f + 1 + p)
    (hhash : ∀ hh, hashT hh = NIL ∨ (0 ≤ hashT hh ∧ hashT hh < (p : Int)))
    (hprev : ∀ q, q < p → prevT (q &&& WINDOW_MASK) = NIL ∨
      (0 ≤ prevT (q &&& WINDOW_MASK) ∧ prevT (q &&& WINDOW_MASK) < (p : Int)))
    (hbl : MIN_MATCH ≤ bl) (hgm : goodMatch inx p (inx.length - p) bl d) :
    distOK (⟨(inx.drop anchor).take (p - anchor), some (d, bl)⟩ ::
      compressLoop inx level maxChain f (insertN inx bl hashT prevT p).1
        (insertN inx bl hashT prevT p).2 (p + bl) (p + bl)) anchor = true ∧
    (inx.length ≤ 7 + V4 →
      varintOK (⟨(inx.drop anchor).take (p - anchor), some (d, bl)⟩ ::
        compressLoop inx level maxChain f (insertN inx bl hashT prevT p).1
          (insertN inx bl hashT prevT p).2 (p + bl) (p + bl)) = true) ∧
    lastOnlyNone (⟨(inx.drop anchor).take (p - anchor), some (d, bl)⟩ ::
      compressLoop inx level maxChain f (insertN inx bl hashT prevT p).1
        (insertN inx bl hashT prevT p).2 (p + bl) (p + bl)) = true ∧
    (Bytes inx →
      applyToks (inx.take anchor) (⟨(inx.drop anchor).take (p - anchor), some (d, bl)⟩ ::
        compressLoop inx level maxChain f (insertN inx bl hashT prevT p).1
          (insertN inx bl hashT prevT p).2 (p + bl) (p + bl)) = inx) ∧
    anchor + toksLen (⟨(inx.drop anchor).take (p - anchor), some (d, bl)⟩ ::
      compressLoop inx level maxChain f (insertN inx bl hashT prevT p).1
        (insertN inx bl hashT prevT p).2 (p + bl) (p + bl)) = inx.length := by
  have hMM : MIN_MATCH = 4 := rfl
  rcases hgm with ⟨h0, _⟩ | ⟨hg1, hg2, hg3, hg4, hg5, hg6⟩
  · exact absurd hbl (by omega)
  have hsl := slice_length inx ha (le_of_lt hplen)
  obtain ⟨hi1, hi2⟩ := insertN_inv inx bl hashT prevT p hhash hprev
  obtain ⟨ihd, ihv, ihl, iha, iht⟩ := ih (p + bl) (p + bl) (insertN inx bl hashT prevT p).1
    (insertN inx bl hashT prevT p).2 le_rfl (by omega) (by omega) hi1 hi2
  refine ⟨?_, ?_, ?_, ?_, ?_⟩
  · simp only [distOK, hsl, Bool.and_eq_true, decide_eq_true_eq]
    refine ⟨⟨⟨⟨hg1, hg3⟩, hg5⟩, by omega⟩, ?_⟩
    have harith : anchor + (p - anchor) + bl = p + bl := by omega
    rw [harith]
    exact ihd
  · intro hN
    simp only [varintOK, hsl, Bool.and_eq_true, decide_eq_true_eq]
    refine ⟨⟨?_, ?_⟩, ihv hN⟩
    · simp only [V4] at hN ⊢
      omega
    · simp only [V4] at hN ⊢
      omega
  · exact lastOnlyNone_cons_some ihl
  · intro hB
    simp only [applyToks, applyTok]
    rw [take_slice ha]
    have hmc : matchCopy (inx.take p) d bl = inx.take (p + bl) := by
      refine matchCopy_take inx d hg3 bl p hg4 (by omega) ?_
      intro i hi
      exact hg6 hB i hi
    rw [hmc]
    exact iha hB
  · simp only [toksLen, tokLen]
    omega

/-- Master lemma for the normal encoder: from any state satisfying the hash
and chain table invariants, the produced token stream has in-range distances
and proper structure; under the byte and length side conditions it moreover
fits the varint widths and reproduces the input. -/
theorem compressLoop_spec (inx : List Nat) (level : Int) (maxChain : Nat) :
    ∀ (fuel anchor p : Nat) (hashT prevT : Nat → Int),
    anchor ≤ p → p ≤ inx.length → inx.length < fuel + p →
    (∀ hh, hashT hh = NIL ∨ (0 ≤ hashT hh ∧ hashT hh < (p : Int))) →
    (∀ q, q < p → prevT (q &&& WINDOW_MASK) = NIL ∨
      (0 ≤ prevT (q &&& WINDOW_MASK) ∧ prevT (q &&& WINDOW_MASK) < (p : Int))) →
    distOK (compressLoop inx level maxChain fuel hashT prevT anchor p) anchor = true ∧
    (inx.length ≤ 7 + V4 →
      varintOK (compressLoop inx level maxChain fuel hashT prevT anchor p) = true) ∧
    lastOnlyNone (compressLoop inx level maxChain fuel hashT prevT anchor p) = true ∧
    (Bytes inx →
      applyToks (inx.take anchor) (compressLoop inx level maxChain fuel hashT prevT anchor p)
        = inx) ∧
    anchor + toksLen (compressLoop inx level maxChain fuel hashT prevT anchor p)
      = inx.length := by
  intro fuel
  induction fuel with
  | zero =>
      intro anchor p hashT prevT ha hp hf hhash hprev
      exact absurd hf (by omega)
  | succ f ih =>
      intro anchor p hashT prevT ha hp hf hhash hprev
      by_cases hplen : p < inx.length
      case neg =>
        have hpl : p = inx.length := by omega
        have hsl := slice_length inx ha hp
        simp only [compressLoop]
        rw [if_neg hplen]
        by_cases hap : anchor ≠ p
        · rw [if_pos hap]
          refine ⟨rfl, ?_, ?_, ?_, ?_⟩
          · intro hN
            simp [varintOK]
            simp only [V4] at hN ⊢
            omega
          · rcases hq : (inx.drop anchor).take (p - anchor) with _ | ⟨b, l⟩
            · rw [hq] at hsl
              simp at hsl
              omega
            · rfl
          · intro hB
            simp only [applyToks, applyTok]
            rw [take_slice ha, hpl, List.take_length]
          · simp only [toksLen, tokLen]
            omega
        · rw [if_neg hap]
          have hae : anchor = p := by omega
          refine ⟨rfl, fun _ => rfl, rfl, ?_, ?_⟩
          · intro hB
            simp only [applyToks]
            rw [hae, hpl, List.take_length]
          · simp only [toksLen]
            omega
      case pos =>
        have h40 : ¬ (MIN_MATCH ≤ (0 : Nat)) := by decide
        simp only [compressLoop]
        rw [if_pos hplen]
        by_cases hmm4 : MIN_MATCH ≤ inx.length - p
        case pos =>
          set fnd := chainStep inx prevT (max ((p : Int) - (WINDOW_SIZE : Int)) NIL) p
            (inx.length - p) maxChain (hashT (Hash32 inx p)) 0 0 with hfnd
          have hgm : goodMatch inx p (inx.length - p) fnd.1 fnd.2 := by
            rw [hfnd]
            exact chainStep_bounds inx prevT p (inx.length - p) hmm4 hprev maxChain
              (hashT (Hash32 inx p)) 0 0 (hhash (Hash32 inx p)) (Or.inl ⟨rfl, rfl⟩)
          rw [if_pos hmm4]
          by_cases hrej : fnd.1 = MIN_MATCH ∧ 7 + 128 ≤ p - anchor
          case pos =>
            have hlz0 : ¬ (5 ≤ level ∧ MIN_MATCH ≤ (0 : Nat) ∧ (0 : Nat) < inx.length - p ∧
                p - anchor ≠ 6) := fun hcon => absurd hcon.2.1 (by decide)
            rw [if_pos hrej, if_neg hlz0, if_neg h40]
            obtain ⟨hi1, hi2⟩ := insertN_inv inx 1 hashT prevT p hhash hprev
            exact ih anchor (p + 1) (insertN inx 1 hashT prevT p).1
              (insertN inx 1 hashT prevT p).2 (by omega) (by omega) (by omega) hi1 hi2
          case neg =>
            rw [if_neg hrej]
            by_cases hlz : 5 ≤ level ∧ MIN_MATCH ≤ fnd.1 ∧ fnd.1 < inx.length - p ∧
                p - anchor ≠ 6
            case pos =>
              rw [if_pos hlz]
              by_cases hls : lazyStep inx prevT
                  (max (((p + 1 : Nat) : Int) - (WINDOW_SIZE : Int)) NIL) (p + 1)
                  (fnd.1 + 1) fnd.1 maxChain (hashT (Hash32 inx (p + 1))) = true
              · rw [if_pos hls, if_neg h40]
                obtain ⟨hi1, hi2⟩ := insertN_inv inx 1 hashT prevT p hhash hprev
                exact ih anchor (p + 1) (insertN inx 1 hashT prevT p).1
                  (insertN inx 1 hashT prevT p).2 (by omega) (by omega) (by omega) hi1 hi2
              · rw [if_neg hls, if_pos hlz.2.1]
                exact compressEmit inx level maxChain f ih anchor p hashT prevT fnd.1 fnd.2
                  ha hplen hf hhash hprev hlz.2.1 hgm
            case neg =>
              rw [if_neg hlz]
              by_cases hble : MIN_MATCH ≤ fnd.1
              · rw [if_pos hble]
                exact compressEmit inx level maxChain f ih anchor p hashT prevT fnd.1 fnd.2
                  ha hplen hf hhash hprev hble hgm
              · rw [if_neg hble]
                obtain ⟨hi1, hi2⟩ := insertN_inv inx 1 hashT prevT p hhash hprev
                exact ih anchor (p + 1) (insertN inx 1 hashT prevT p).1
                  (insertN inx 1 hashT prevT p).2 (by omega) (by omega) (by omega) hi1 hi2
        case neg =>
          rw [if_neg hmm4]
          have h04c : ¬ (((0, 0) : Nat × Nat).1 = MIN_MATCH ∧ 7 + 128 ≤ p - anchor) :=
            fun hcon => absurd hcon.1 (by decide)
          have hlz0 : ¬ (5 ≤ level ∧ MIN_MATCH ≤ ((0, 0) : Nat × Nat).1 ∧
              ((0, 0) : Nat × Nat).1 < inx.length - p ∧ p - anchor ≠ 6) :=
            fun hcon => absurd hcon.2.1 (by decide)
          have h40c : ¬ (MIN_MATCH ≤ ((0, 0) : Nat × Nat).1) := by decide
          rw [if_neg h04c, if_neg hlz0, if_neg h40c]
          obtain ⟨hi1, hi2⟩ := insertN_inv inx 1 hashT prevT p hhash hprev
          exact ih anchor (p + 1) (insertN inx 1 hashT prevT p).1
            (insertN inx 1 hashT prevT p).2 (by omega) (by omega) (by omega) hi1 hi2

/-- The normal encoder's token stream from the initial state: decoder-ready
and (on byte inputs below the varint capacity) faithful to the input, for any
initial chain table. -/
theorem compressToks_spec (inx : List Nat) (level : Int) (prev0 : Nat → Int) :
    distOK (compressToks inx level prev0) 0 = true ∧
    (inx.length ≤ 7 + V4 → varintOK (compressToks inx level prev0) = true) ∧
    lastOnlyNone (compressToks inx level prev0) = true ∧
    (Bytes inx → applyToks [] (compressToks inx level prev0) = inx) ∧
    toksLen (compressToks inx level prev0) = inx.length := by
  have h := compressLoop_spec inx level (maxChainOf level) (inx.length + 1) 0 0
    (fun _ => NIL) prev0 le_rfl (Nat.zero_le _) (by omega) (fun hh => Or.inl rfl)
    (fun q hq => absurd hq (by omega))
  simpa using h

/-- The fast encoder's token stream from the initial state: decoder-ready and
(on byte inputs below the varint capacity) faithful to the input. -/
theorem fastToks_spec (inx : List Nat) :
    distOK (fastToks inx) 0 = true ∧
    (inx.length ≤ 7 + V4 → varintOK (fastToks inx) = true) ∧
    lastOnlyNone (fastToks inx) = true ∧
    (Bytes inx → applyToks [] (fastToks inx) = inx) ∧
    toksLen (fastToks inx) = inx.length := by
  have h := fastLoop_spec inx (inx.length + 1) 0 0 (fun _ => NIL) le_rfl (Nat.zero_le _)
    (by omega) (fun hh => Or.inl rfl)
  simpa using h

/-- Decoding the serialization of a well-formed token stream that reproduces
`inx` yields `inx` when the declared capacity is `inx.length`. -/
theorem toks_roundtrip (inx : List Nat) (toks : List Tok) (hd : distOK toks 0 = true)
    (hv : varintOK toks = true) (hl : lastOnlyNone toks = true)
    (ha : applyToks [] toks = inx) (ht : toksLen toks = inx.length) :
    (Decompress (encToks toks) inx.length).1 = some inx := by
  obtain ⟨rd1, wr1, h⟩ := decLoop_toks toks [] (encToks toks) inx.length [] 0 0
    ((encToks toks).length + 1) (by simp) (by simpa using hd) hv hl (by simp [ht])
    (by simp)
  unfold Decompress
  simp only [List.length_nil] at h
  rw [h]
  simp [ha]

/-- C5: every back-reference either encoder emits (at any effort level, from
any prior chain table) has a length of at least MIN_MATCH and a distance in
[1, WINDOW_SIZE) no larger than the output position at which its match
starts; for a valid level this token stream is exactly what Compress
serializes. -/
theorem ulz_C5 (inx : List Nat) (level : Int) (hash0 prev0 : Nat → Int)
    (hl1 : 1 ≤ level) (hl9 : level ≤ 9) :
    Compress inx level hash0 prev0 = some (encToks (compressToks inx level prev0)) ∧
    distOK (compressToks inx level prev0) 0 = true ∧
    CompressFast inx hash0 prev0 = encToks (fastToks inx) ∧
    distOK (fastToks inx) 0 = true := by
  refine ⟨?_, (compressToks_spec inx level prev0).1, rfl, (fastToks_spec inx).1⟩
  unfold Compress
  rw [if_neg (by omega)]

/-- Witness for C5 at a concrete input, level and junk prior tables. -/
theorem ulz_C5_witness :
    (1 : Int) ≤ 5 ∧ (5 : Int) ≤ 9 ∧
    (Compress [0, 1, 2, 3, 0, 1, 2, 3] 5 (fun _ => NIL) (fun _ => 7)
        = some (encToks (compressToks [0, 1, 2, 3, 0, 1, 2, 3] 5 (fun _ => 7))) ∧
      distOK (compressToks [0, 1, 2, 3, 0, 1, 2, 3] 5 (fun _ => 7)) 0 = true ∧
      CompressFast [0, 1, 2, 3, 0, 1, 2, 3] (fun _ => NIL) (fun _ => 7)
        = encToks (fastToks [0, 1, 2, 3, 0, 1, 2, 3]) ∧
      distOK (fastToks [0, 1, 2, 3, 0, 1, 2, 3]) 0 = true) :=
  ⟨by norm_num, by norm_num,
    ulz_C5 [0, 1, 2, 3, 0, 1, 2, 3] 5 (fun _ => NIL) (fun _ => 7)
      (by norm_num) (by norm_num)⟩

/-- C1 (amended): the round-trip holds for both encoders on byte inputs of
length at most 7 + V4 = 270549126 (so that every emitted varint fits the four
bytes the decoder reads back): for every level in [1, 9] and any prior table
contents, Compress succeeds and decompressing its stream with the input
length as capacity reproduces the input, and likewise for CompressFast. -/
theorem ulz_C1_amended (inx : List Nat) (hB : Bytes inx) (hN : inx.length ≤ 7 + V4)
    (level : Int) (hl1 : 1 ≤ level) (hl9 : level ≤ 9)
    (hash0 prev0 hash0f prev0f : Nat → Int) :
    (∃ s, Compress inx level hash0 prev0 = some s ∧ (Decompress s inx.length).1 = some inx) ∧
    (Decompress (CompressFast inx hash0f prev0f) inx.length).1 = some inx := by
  obtain ⟨cd, cv, cl, ca, ct⟩ := compressToks_spec inx level prev0
  obtain ⟨fd, fv, fl, fa, ft⟩ := fastToks_spec inx
  constructor
  · refine ⟨encToks (compressToks inx level prev0), ?_, ?_⟩
    · unfold Compress
      rw [if_neg (by omega)]
    · exact toks_roundtrip inx _ cd (cv hN) cl (ca hB) ct
  · exact toks_roundtrip inx _ fd (fv hN) fl (fa hB) ft

/-- Witness for the amended C1 at a concrete input and level. -/
theorem ulz_C1_amended_witness :
    Bytes [0, 1, 2, 3, 0, 1, 2, 3] ∧ ([0, 1, 2, 3, 0, 1, 2, 3] : List Nat).length ≤ 7 + V4 ∧
    (1 : Int) ≤ 3 ∧ (3 : Int) ≤ 9 ∧
    ((∃ s, Compress [0, 1, 2, 3, 0, 1, 2, 3] 3 (fun _ => NIL) (fun _ => 5) = some s ∧
        (Decompress s ([0, 1, 2, 3, 0, 1, 2, 3] : List Nat).length).1
          = some [0, 1, 2, 3, 0, 1, 2, 3]) ∧
      (Decompress (CompressFast [0, 1, 2, 3, 0, 1, 2, 3] (fun _ => 9) (fun _ => 5))
          ([0, 1, 2, 3, 0, 1, 2, 3] : List Nat).length).1 = some [0, 1, 2, 3, 0, 1, 2, 3]) :=
  ⟨by unfold Bytes; decide, by decide, by norm_num, by norm_num,
    ulz_C1_amended [0, 1, 2, 3, 0, 1, 2, 3] (by unfold Bytes; decide) (by decide) 3
      (by norm_num) (by norm_num) (fun _ => NIL) (fun _ => 5) (fun _ => 9) (fun _ => 5)⟩

/-! Symbolic evaluation of the fast encoder on an all-zero input, used for the
C1 counterexample: beyond 7 + V4 input bytes the emitted match-length varint
no longer round-trips through the 4-byte decoder. -/

theorem getD_replicate (n i : Nat) : (List.replicate n (0 : Nat)).getD i 0 = 0 := by
  rcases Nat.lt_or_ge i n with h | h
  · rw [List.getD_eq_getElem _ _ (by simpa using h)]
    simp
  · rw [List.getD_eq_default]
    simpa using h

theorem matchLen_all (inx : List Nat) (s p maxm : Nat)
    (h : ∀ i, inx.getD (s + i) 0 = inx.getD (p + i) 0) :
    ∀ (fuel len : Nat), maxm - len ≤ fuel → len ≤ maxm →
    matchLen inx s p maxm fuel len = maxm := by
  intro fuel
  induction fuel with
  | zero =>
      intro len h1 h2
      simp only [matchLen]
      omega
  | succ f ih =>
      intro len h1 h2
      simp only [matchLen]
      by_cases hlm : len < maxm
      · rw [if_pos ⟨hlm, h len⟩]
        exact ih (len + 1) (by omega) (by omega)
      · rw [if_neg (fun hc => hlm hc.1)]
        omega

/-- One literal step of the fast encoder: enough room for a match but the
screen fails; only the hash bucket is updated. -/
theorem fastLoop_lit_noscreen (inx : List Nat) (f : Nat) (tbl : Nat → Int) (anchor p : Nat)
    (hp : p < inx.length) (hm : MIN_MATCH ≤ inx.length - p)
    (hscr : ¬ (max ((p : Int) - (WINDOW_SIZE : Int)) NIL < tbl (Hash32 inx p) ∧
      load32 inx ((tbl (Hash32 inx p)).toNat) = load32 inx p)) :
    fastLoop inx (f + 1) tbl anchor p
      = fastLoop inx f (upd tbl (Hash32 inx p) (p : Int)) anchor (p + 1) := by
  simp only [fastLoop]
  rw [if_pos hp, if_pos hm, if_neg hscr]
  rw [if_neg (show ¬ (((0 : Nat), (0 : Nat), upd tbl (Hash32 inx p) (p : Int)).1 = MIN_MATCH ∧
    7 + 128 ≤ p - anchor) from fun hc => by simp [MIN_MATCH] at hc)]
  rw [if_neg (show ¬ (MIN_MATCH ≤ ((0 : Nat), (0 : Nat),
    upd tbl (Hash32 inx p) (p : Int)).1) from by simp [MIN_MATCH])]

/-- One match-emission step of the fast encoder. -/
theorem fastLoop_emit (inx : List Nat) (f : Nat) (tbl : Nat → Int) (anchor p : Nat)
    (hp : p < inx.length) (hm : MIN_MATCH ≤ inx.length - p)
    (hscr : max ((p : Int) - (WINDOW_SIZE : Int)) NIL < tbl (Hash32 inx p) ∧
      load32 inx ((tbl (Hash32 inx p)).toNat) = load32 inx p)
    (hrej : ¬ (matchLen inx ((tbl (Hash32 inx p)).toNat) p (inx.length - p) (inx.length - p)
        MIN_MATCH = MIN_MATCH ∧ 7 + 128 ≤ p - anchor))
    (hge : MIN_MATCH ≤ matchLen inx ((tbl (Hash32 inx p)).toNat) p (inx.length - p)
      (inx.length - p) MIN_MATCH) :
    fastLoop inx (f + 1) tbl anchor p
      = ⟨(inx.drop anchor).take (p - anchor),
          some (p - (tbl (Hash32 inx p)).toNat,
            matchLen inx ((tbl (Hash32 inx p)).toNat) p (inx.length - p) (inx.length - p)
              MIN_MATCH)⟩ ::
        fastLoop inx f
          (upd (upd (upd (upd tbl (Hash32 inx p) (p : Int)) (Hash32 inx (p + 1))
            ((p : Int) + 1)) (Hash32 inx (p + 2)) ((p : Int) + 2)) (Hash32 inx (p + 3))
            ((p : Int) + 3))
          (p + matchLen inx ((tbl (Hash32 inx p)).toNat) p (inx.length - p) (inx.length - p)
            MIN_MATCH)
          (p + matchLen inx ((tbl (Hash32 inx p)).toNat) p (inx.length - p) (inx.length - p)
            MIN_MATCH) := by
  simp only [fastLoop]
  rw [if_pos hp, if_pos hm, if_pos hscr]
  rw [if_neg (show ¬ (((matchLen inx ((tbl (Hash32 inx p)).toNat) p (inx.length - p)
      (inx.length - p) MIN_MATCH, p - (tbl (Hash32 inx p)).toNat,
      upd tbl (Hash32 inx p) (p : Int)).1 = MIN_MATCH ∧ 7 + 128 ≤ p - anchor))
    from fun hc => hrej hc)]
  rw [if_pos (show MIN_MATCH ≤ (matchLen inx ((tbl (Hash32 inx p)).toNat) p (inx.length - p)
      (inx.length - p) MIN_MATCH, p - (tbl (Hash32 inx p)).toNat,
      upd tbl (Hash32 inx p) (p : Int)).1 from hge)]

/-- Loop exit: at or past the input end with no pending literals, the fast
encoder produces nothing (any fuel). -/
theorem fastLoop_exit (inx : List Nat) (fuel : Nat) (tbl : Nat → Int) (anchor p : Nat)
    (hp : ¬ p < inx.length) (hap : anchor = p) :
    fastLoop inx fuel tbl anchor p = [] := by
  cases fuel with
  | zero => rfl
  | succ f =>
      simp only [fastLoop]
      rw [if_neg hp, if_neg (show ¬ anchor ≠ p from fun h => h hap)]

/-- The fast encoder on M + 5 zero bytes: one pending literal, then a single
match of length M + 4 at distance 1. -/
theorem fastToks_rep (M : Nat) :
    fastToks (List.replicate (M + 5) (0 : Nat)) = [⟨[0], some (1, M + 4)⟩] := by
  show fastToks (List.replicate (M + 4 + 1) (0 : Nat)) = [⟨[0], some (1, M + 4)⟩]
  have hz : ∀ i, (List.replicate (M + 4 + 1) (0 : Nat)).getD i 0 = 0 :=
    fun i => getD_replicate (M + 4 + 1) i
  have hlen : (List.replicate (M + 4 + 1) (0 : Nat)).length = M + 4 + 1 := by simp
  have hload : ∀ i j, load32 (List.replicate (M + 4 + 1) (0 : Nat)) i
      = load32 (List.replicate (M + 4 + 1) (0 : Nat)) j := by
    intro i j
    unfold load32
    rw [hz, hz, hz, hz, hz, hz, hz, hz]
  have hhasheq : Hash32 (List.replicate (M + 4 + 1) (0 : Nat)) 1
      = Hash32 (List.replicate (M + 4 + 1) (0 : Nat)) 0 := by
    unfold Hash32
    rw [hload 1 0]
  have hupd : (upd (fun _ => NIL) (Hash32 (List.replicate (M + 4 + 1) (0 : Nat)) 0)
        ((0 : Nat) : Int)) (Hash32 (List.replicate (M + 4 + 1) (0 : Nat)) 1)
      = ((0 : Nat) : Int) := by
    rw [hhasheq]
    unfold upd
    rw [if_pos rfl]
  have h00 : (((0 : Nat) : Int)).toNat = 0 := rfl
  have hml : matchLen (List.replicate (M + 4 + 1) (0 : Nat)) 0 1
      ((List.replicate (M + 4 + 1) (0 : Nat)).length - 1)
      ((List.replicate (M + 4 + 1) (0 : Nat)).length - 1) MIN_MATCH
      = (List.replicate (M + 4 + 1) (0 : Nat)).length - 1 := by
    refine matchLen_all _ 0 1 _ (fun i => by rw [hz, hz]) _ MIN_MATCH (by omega) ?_
    rw [hlen]
    simp only [MIN_MATCH]
    omega
  have hsub : (List.replicate (M + 4 + 1) (0 : Nat)).length - 1 = M + 4 := by
    rw [hlen]
    omega
  unfold fastToks
  rw [hlen]
  rw [fastLoop_lit_noscreen]
  rotate_left
  · rw [hlen]
    omega
  · rw [hlen]
    simp only [MIN_MATCH]
    omega
  · intro hc
    obtain ⟨hc1, _⟩ := hc
    simp only [NIL] at hc1
    omega
  rw [fastLoop_emit]
  rotate_left
  · rw [hlen]
    omega
  · rw [hlen]
    simp only [MIN_MATCH]
    omega
  · constructor
    · rw [hupd]
      simp only [NIL, WINDOW_SIZE]
      omega
    · rw [hupd, h00]
      exact hload 0 1
  · intro hc
    have := hc.2
    omega
  · rw [hupd, h00, hml]
    rw [hlen]
    simp only [MIN_MATCH]
    omega
  rw [hupd, h00, hml, hsub]
  rw [fastLoop_exit]
  rotate_left
  · rw [hlen]
    omega
  · rfl
  rfl

/-! Statelessness: the chain walks, the lazy probe and the insertions only
ever read chain-table slots written since the call began, so the compressed
output is independent of the tables' prior contents. -/

theorem chainStep_congr (inx : List Nat) (prevA prevB : Nat → Int) (p maxm : Nat)
    (limit : Int) (hlim : NIL ≤ limit)
    (hagree : ∀ q, q < p → prevA (q &&& WINDOW_MASK) = prevB (q &&& WINDOW_MASK))
    (hprevA : ∀ q, q < p → prevA (q &&& WINDOW_MASK) = NIL ∨
      (0 ≤ prevA (q &&& WINDOW_MASK) ∧ prevA (q &&& WINDOW_MASK) < (p : Int))) :
    ∀ (cl : Nat) (s : Int) (bl d : Nat), (s = NIL ∨ (0 ≤ s ∧ s < (p : Int))) →
    chainStep inx prevA limit p maxm cl s bl d
      = chainStep inx prevB limit p maxm cl s bl d := by
  intro cl
  induction cl with
  | zero =>
      intro s bl d hs
      rfl
  | succ c ih =>
      intro s bl d hs
      simp only [chainStep]
      by_cases hls : limit < s
      · rw [if_pos hls, if_pos hls]
        have hsp : s.toNat < p := by
          rcases hs with h0 | ⟨h1, h2⟩
          · exfalso
            simp only [NIL] at h0 hlim
            omega
          · omega
        have hrec := hprevA s.toNat hsp
        have hag := hagree s.toNat hsp
        by_cases hscr : inx.getD (s.toNat + bl) 0 = inx.getD (p + bl) 0 ∧
            load32 inx s.toNat = load32 inx p
        · rw [if_pos hscr, if_pos hscr]
          by_cases hlt : bl < matchLen inx s.toNat p maxm maxm MIN_MATCH
          · rw [if_pos hlt, if_pos hlt]
            by_cases hmx : matchLen inx s.toNat p maxm maxm MIN_MATCH = maxm
            · rw [if_pos hmx, if_pos hmx]
            · rw [if_neg hmx, if_neg hmx]
              by_cases hc0 : c = 0
              · rw [if_pos hc0, if_pos hc0]
              · rw [if_neg hc0, if_neg hc0, hag]
                refine ih (prevB (s.toNat &&& WINDOW_MASK)) _ _ ?_
                rw [← hag]
                exact hrec
          · rw [if_neg hlt, if_neg hlt]
            by_cases hc0 : c = 0
            · rw [if_pos hc0, if_pos hc0]
            · rw [if_neg hc0, if_neg hc0, hag]
              refine ih (prevB (s.toNat &&& WINDOW_MASK)) bl d ?_
              rw [← hag]
              exact hrec
        · rw [if_neg hscr, if_neg hscr]
          by_cases hc0 : c = 0
          · rw [if_pos hc0, if_pos hc0]
          · rw [if_neg hc0, if_neg hc0, hag]
            refine ih (prevB (s.toNat &&& WINDOW_MASK)) bl d ?_
            rw [← hag]
            exact hrec
      · rw [if_neg hls, if_neg hls]

theorem lazyStep_congr (inx : List Nat) (prevA prevB : Nat → Int) (p x targetLen bestLen : Nat)
    (limit : Int) (hlim : NIL ≤ limit)
    (hagree : ∀ q, q < p → prevA (q &&& WINDOW_MASK) = prevB (q &&& WINDOW_MASK))
    (hprevA : ∀ q, q < p → prevA (q &&& WINDOW_MASK) = NIL ∨
      (0 ≤ prevA (q &&& WINDOW_MASK) ∧ prevA (q &&& WINDOW_MASK) < (p : Int))) :
    ∀ (cl : Nat) (s : Int), (s = NIL ∨ (0 ≤ s ∧ s < (p : Int))) →
    lazyStep inx prevA limit x targetLen bestLen cl s
      = lazyStep inx prevB limit x targetLen bestLen cl s := by
  intro cl
  induction cl with
  | zero =>
      intro s hs
      rfl
  | succ c ih =>
      intro s hs
      simp only [lazyStep]
      by_cases hls : limit < s
      · rw [if_pos hls, if_pos hls]
        have hsp : s.toNat < p := by
          rcases hs with h0 | ⟨h1, h2⟩
          · exfalso
            simp only [NIL] at h0 hlim
            omega
          · omega
        have hrec := hprevA s.toNat hsp
        have hag := hagree s.toNat hsp
        by_cases hscr : inx.getD (s.toNat + bestLen) 0 = inx.getD (x + bestLen) 0 ∧
            load32 inx s.toNat = load32 inx x
        · rw [if_pos hscr, if_pos hscr]
          by_cases hmx : matchLen inx s.toNat x targetLen targetLen MIN_MATCH = targetLen
          · rw [if_pos hmx, if_pos hmx]
          · rw [if_neg hmx, if_neg hmx]
            by_cases hc0 : c = 0
            · rw [if_pos hc0, if_pos hc0]
            · rw [if_neg hc0, if_neg hc0, hag]
              refine ih (prevB (s.toNat &&& WINDOW_MASK)) ?_
              rw [← hag]
              exact hrec
        · rw [if_neg hscr, if_neg hscr]
          by_cases hc0 : c = 0
          · rw [if_pos hc0, if_pos hc0]
          · rw [if_neg hc0, if_neg hc0, hag]
            refine ih (prevB (s.toNat &&& WINDOW_MASK)) ?_
            rw [← hag]
            exact hrec
      · rw [if_neg hls, if_neg hls]

theorem insertN_congr (inx : List Nat) : ∀ (n : Nat) (hashT prevA prevB : Nat → Int) (p : Nat),
    (∀ q, q < p → prevA (q &&& WINDOW_MASK) = prevB (q &&& WINDOW_MASK)) →
    (insertN inx n hashT prevA p).1 = (insertN inx n hashT prevB p).1 ∧
    (∀ q, q < p + n → (insertN inx n hashT prevA p).2 (q &&& WINDOW_MASK)
       = (insertN inx n hashT prevB p).2 (q &&& WINDOW_MASK)) := by
  intro n
  induction n with
  | zero =>
      intro hashT prevA prevB p hagree
      simp only [insertN]
      exact ⟨trivial, fun q hq => hagree q (by omega)⟩
  | succ n ihn =>
      intro hashT prevA prevB p hagree
      simp only [insertN]
      have hagree1 : ∀ q, q < p + 1 →
          upd prevA (p &&& WINDOW_MASK) (hashT (Hash32 inx p)) (q &&& WINDOW_MASK)
            = upd prevB (p &&& WINDOW_MASK) (hashT (Hash32 inx p)) (q &&& WINDOW_MASK) := by
        intro q hq
        unfold upd
        split
        · rfl
        · rename_i hne
          have hqp : q ≠ p := fun he => hne (by rw [he])
          exact hagree q (by omega)
      have hres := ihn (upd hashT (Hash32 inx p) (p : Int))
        (upd prevA (p &&& WINDOW_MASK) (hashT (Hash32 inx p)))
        (upd prevB (p &&& WINDOW_MASK) (hashT (Hash32 inx p))) (p + 1) hagree1
      have harith : p + 1 + n = p + (n + 1) := by omega
      rw [harith] at hres
      exact hres

theorem compressLoop_congr (inx : List Nat) (level : Int) (maxChain : Nat) :
    ∀ (fuel anchor p : Nat) (hashT prevA prevB : Nat → Int),
    (∀ hh, hashT hh = NIL ∨ (0 ≤ hashT hh ∧ hashT hh < (p : Int))) →
    (∀ q, q < p → prevA (q &&& WINDOW_MASK) = NIL ∨
      (0 ≤ prevA (q &&& WINDOW_MASK) ∧ prevA (q &&& WINDOW_MASK) < (p : Int))) →
    (∀ q, q < p → prevA (q &&& WINDOW_MASK) = prevB (q &&& WINDOW_MASK)) →
    compressLoop inx level maxChain fuel hashT prevA anchor p
      = compressLoop inx level maxChain fuel hashT prevB anchor p := by
  intro fuel
  induction fuel with
  | zero =>
      intro anchor p hashT prevA prevB hhash hprevA hagree
      rfl
  | succ f ih =>
      intro anchor p hashT prevA prevB hhash hprevA hagree
      simp only [compressLoop]
      by_cases hplen : p < inx.length
      case neg =>
        rw [if_neg hplen, if_neg hplen]
      case pos =>
        rw [if_pos hplen, if_pos hplen]
        have hcore : ∀ (n a : Nat),
            compressLoop inx level maxChain f (insertN inx n hashT prevA p).1
              (insertN inx n hashT prevA p).2 a (p + n)
            = compressLoop inx level maxChain f (insertN inx n hashT prevB p).1
              (insertN inx n hashT prevB p).2 a (p + n) := by
          intro n a
          obtain ⟨hie1, hie2⟩ := insertN_congr inx n hashT prevA prevB p hagree
          obtain ⟨hiv1, hiv2⟩ := insertN_inv inx n hashT prevA p hhash hprevA
          rw [hie1]
          refine ih a (p + n) (insertN inx n hashT prevB p).1
            (insertN inx n hashT prevA p).2 (insertN inx n hashT prevB p).2 ?_ ?_ hie2
          · rw [← hie1]
            exact hiv1
          · exact hiv2
        have h40 : ¬ (MIN_MATCH ≤ (0 : Nat)) := by decide
        by_cases hmm4 : MIN_MATCH ≤ inx.length - p
        case pos =>
          have hcs : chainStep inx prevA (max ((p : Int) - (WINDOW_SIZE : Int)) NIL) p
              (inx.length - p) maxChain (hashT (Hash32 inx p)) 0 0
              = chainStep inx prevB (max ((p : Int) - (WINDOW_SIZE : Int)) NIL) p
              (inx.length - p) maxChain (hashT (Hash32 inx p)) 0 0 :=
            chainStep_congr inx prevA prevB p (inx.length - p) _ (le_max_right _ _) hagree
              hprevA maxChain (hashT (Hash32 inx p)) 0 0 (hhash (Hash32 inx p))
          rw [if_pos hmm4, if_pos hmm4, hcs]
          set fnd := chainStep inx prevB (max ((p : Int) - (WINDOW_SIZE : Int)) NIL) p
            (inx.length - p) maxChain (hashT (Hash32 inx p)) 0 0 with hfnd
          by_cases hrej : fnd.1 = MIN_MATCH ∧ 7 + 128 ≤ p - anchor
          case pos =>
            have hlz0 : ¬ (5 ≤ level ∧ MIN_MATCH ≤ (0 : Nat) ∧ (0 : Nat) < inx.length - p ∧
                p - anchor ≠ 6) := fun hcon => absurd hcon.2.1 (by decide)
            rw [if_pos hrej, if_neg hlz0, if_neg hlz0, if_neg h40, if_neg h40]
            exact hcore 1 anchor
          case neg =>
            rw [if_neg hrej]
            by_cases hlz : 5 ≤ level ∧ MIN_MATCH ≤ fnd.1 ∧ fnd.1 < inx.length - p ∧
                p - anchor ≠ 6
            case pos =>
              have hlse : lazyStep inx prevA
                  (max (((p + 1 : Nat) : Int) - (WINDOW_SIZE : Int)) NIL) (p + 1)
                  (fnd.1 + 1) fnd.1 maxChain (hashT (Hash32 inx (p + 1)))
                  = lazyStep inx prevB
                  (max (((p + 1 : Nat) : Int) - (WINDOW_SIZE : Int)) NIL) (p + 1)
                  (fnd.1 + 1) fnd.1 maxChain (hashT (Hash32 inx (p + 1))) :=
                lazyStep_congr inx prevA prevB p (p + 1) (fnd.1 + 1) fnd.1 _
                  (le_max_right _ _) hagree hprevA maxChain (hashT (Hash32 inx (p + 1)))
                  (hhash (Hash32 inx (p + 1)))
              rw [if_pos hlz, if_pos hlz, hlse]
              by_cases hls : lazyStep inx prevB
                  (max (((p + 1 : Nat) : Int) - (WINDOW_SIZE : Int)) NIL) (p + 1)
                  (fnd.1 + 1) fnd.1 maxChain (hashT (Hash32 inx (p + 1))) = true
              · rw [if_pos hls, if_neg h40, if_neg h40]
                exact hcore 1 anchor
              · rw [if_neg hls, if_pos hlz.2.1, if_pos hlz.2.1]
                exact congrArg (List.cons _) (hcore fnd.1 (p + fnd.1))
            case neg =>
              rw [if_neg hlz, if_neg hlz]
              by_cases hble : MIN_MATCH ≤ fnd.1
              · rw [if_pos hble, if_pos hble]
                exact congrArg (List.cons _) (hcore fnd.1 (p + fnd.1))
              · rw [if_neg hble, if_neg hble]
                exact hcore 1 anchor
        case neg =>
          rw [if_neg hmm4, if_neg hmm4]
          have h04c : ¬ (((0, 0) : Nat × Nat).1 = MIN_MATCH ∧ 7 + 128 ≤ p - anchor) :=
            fun hcon => absurd hcon.1 (by decide)
          have hlz0 : ¬ (5 ≤ level ∧ MIN_MATCH ≤ ((0, 0) : Nat × Nat).1 ∧
              ((0, 0) : Nat × Nat).1 < inx.length - p ∧ p - anchor ≠ 6) :=
            fun hcon => absurd hcon.2.1 (by decide)
          have h40c : ¬ (MIN_MATCH ≤ ((0, 0) : Nat × Nat).1) := by decide
          rw [if_neg h04c, if_neg hlz0, if_neg hlz0, if_neg h40c, if_neg h40c]
          exact hcore 1 anchor

/-- C7: neither encoder's output depends on the prior contents of the
instance tables: any two starting states (hash table and chain table) give
byte-identical compressed output, for every input and level; in particular
repeated calls on identical arguments agree. -/
theorem ulz_C7 (inx : List Nat) (level : Int) (hashA prevA hashB prevB : Nat → Int) :
    Compress inx level hashA prevA = Compress inx level hashB prevB ∧
    CompressFast inx hashA prevA = CompressFast inx hashB prevB := by
  refine ⟨?_, rfl⟩
  unfold Compress
  by_cases hl : level < 1 ∨ 9 < level
  · rw [if_pos hl, if_pos hl]
  · rw [if_neg hl, if_neg hl]
    have h := compressLoop_congr inx level (maxChainOf level) (inx.length + 1) 0 0
      (fun _ => NIL) prevA prevB (fun hh => Or.inl rfl)
      (fun q hq => absurd hq (by omega)) (fun q hq => absurd hq (by omega))
    unfold compressToks
    rw [h]

/-- C1 counterexample: on 270549140 zero bytes (longer than 7 + V4) the fast
encoder emits a match whose length varint needs five bytes; the decoder reads
only four of them, misaligns, and reports corruption, so the round-trip fails
at the documented output capacity. -/
theorem ulz_C1_cex :
    (Decompress (CompressFast (List.replicate 270549140 (0 : Nat)) (fun _ => NIL)
      (fun _ => NIL)) 270549140).1 = none := by
  have h := fastToks_rep 270549135
  have he : (270549135 : Nat) + 5 = 270549140 := by norm_num
  rw [he] at h
  simp only [CompressFast]
  rw [h]
  rfl

/-- C4 counterexample: the fast encoder turns [0,1,2,3,0,1,2,3] into a 7-byte
stream; cutting its last 2 bytes leaves a pure literal token whose run ends
exactly at the shortened input end, so Decompress silently succeeds with only
the 4-byte literal prefix instead of reporting truncation. -/
theorem ulz_C4_cex :
    (CompressFast [0, 1, 2, 3, 0, 1, 2, 3] (fun _ => NIL) (fun _ => NIL)).length = 7 ∧
    (Decompress ((CompressFast [0, 1, 2, 3, 0, 1, 2, 3] (fun _ => NIL)
      (fun _ => NIL)).take 5) 8).1 = some [0, 1, 2, 3] ∧
    ([0, 1, 2, 3] : List Nat) ≠ [0, 1, 2, 3, 0, 1, 2, 3] := by
  refine ⟨rfl, rfl, ?_⟩
  decide

/-- C4 (amended): truncation of a compressed stream is not reliably detected:
Decompress may return success on the shortened stream (silent truncation, as
the counterexample shows); what does hold for every stream and every
truncation is that a successful decode stays within the declared output
capacity. -/
theorem ulz_C4_amended (s : List Nat) (outLen k : Nat) (o : List Nat)
    (h : (Decompress (s.take (s.length - k)) outLen).1 = some o) : o.length ≤ outLen := by
  unfold Decompress at h
  rcases hres : DecLoop (s.take (s.length - k)) outLen
      ((s.take (s.length - k)).length + 1) 0 [] 0 0 with ⟨r, rd1, wr1⟩
  rw [hres] at h
  have h2 : r = some o := h
  subst h2
  exact decLoop_out_le ((s.take (s.length - k)).length + 1) (s.take (s.length - k)) outLen
    0 [] o 0 0 rd1 wr1 (by simp) hres

/-- Witness for the amended C4 on the truncated stream of the counterexample. -/
theorem ulz_C4_amended_witness :
    (Decompress (([128, 0, 1, 2, 3, 4, 0] : List Nat).take
        (([128, 0, 1, 2, 3, 4, 0] : List Nat).length - 2)) 8).1 = some [0, 1, 2, 3] ∧
    ([0, 1, 2, 3] : List Nat).length ≤ 8 :=
  ⟨rfl, ulz_C4_amended [128, 0, 1, 2, 3, 4, 0] 8 2 [0, 1, 2, 3] rfl⟩

/-- C8: on every input, including malformed and truncated streams, the
decoder's input reads and output writes (counting the full 8-byte chunks of
WildCopy and the bytes the varint and distance loads consume past a truncated
input) stay within the documented EXCESS guard region past the declared
buffer lengths, whether it succeeds or returns the error result; every
overrun otherwise is rejected by a check before the copy it guards. -/
theorem ulz_C8 (inx : List Nat) (outLen : Nat) :
    (Decompress inx outLen).2.1 ≤ inx.length + EXCESS ∧
    (Decompress inx outLen).2.2 ≤ outLen + EXCESS :=
  decLoop_bounds (inx.length + 1) inx outLen 0 [] 0 0 (by simp) (by omega) (by omega)

end ULZ
